import Mathlib

/-!
# i3fstatus: status line generator for i3bar

A shallow embedding of `main.go` and proofs about it.

* unsigned 64-bit integers are natural numbers, with wrap-around written as `% u64`;
* `float64` is the type `F64`: a finite value is the rational number it denotes, every
  arithmetic result is rounded to the nearest binary64 value (ties to even), and the
  special values (signed zero, infinities, NaN) are separate constructors;
* `fmt.Sprintf` verbs are string functions (`fmtF` is `%W.Pf`, `fmtD` is `%Wd`,
  `padLeft` is `%Ws`, `padRight` is `%-Ws`);
* the variables declared before the `for` loop of `main` are the fields of `Vars`;
  one pass through the loop body is `cycle`;
* the five readers and the clock are inputs of a cycle; `json.Marshal` on a slice of
  segments is `marshal`, and the whole loop with its output is `mainLoop`.
-/

namespace I3fstatus

/-! ## Machine integers -/

/-- Number of values of a `uint64`. -/
def u64 : Nat := 2 ^ 64

/-- Subtraction of `uint64` values (wraps around). -/
def sub64 (a b : Nat) : Nat := (a + u64 - b) % u64

/-- Addition of `uint64` values (wraps around). -/
def add64 (a b : Nat) : Nat := (a + b) % u64

/-- Multiplication of `uint64` values (wraps around). -/
def mul64 (a b : Nat) : Nat := (a * b) % u64

/-- Conversion `uint64(x)` of an `int64` value. -/
def ofInt64 (x : Int) : Nat := (x % (u64 : Int)).toNat

/-! ## binary64 floating point -/

/-- A `float64` value: a finite number (the rational it denotes, `fin 0` being `+0`),
negative zero, an infinity with its sign, or NaN. -/
inductive F64 where
  | fin (q : ℚ)
  | negZero
  | inf (neg : Bool)
  | nan
  deriving DecidableEq

/-- The power `2 ^ e` for an integer exponent. -/
def pow2 (e : ℤ) : ℚ :=
  if 0 ≤ e then ((2 ^ e.toNat : ℕ) : ℚ) else (((2 ^ (-e).toNat : ℕ) : ℚ))⁻¹

/-- Binary logarithm with fuel: the number of halvings that bring `n` below 2. -/
def log2Aux : Nat → Nat → Nat
  | 0, _ => 0
  | fuel + 1, n => if n < 2 then 0 else log2Aux fuel (n / 2) + 1

/-- Binary logarithm of a natural number, rounded down (`0` for `0`). -/
def ilog2 (n : Nat) : Nat := log2Aux n n

/-- For `a > 0`, the exponent `e` with `2 ^ e ≤ a < 2 ^ (e + 1)`. -/
def floorLog2 (a : ℚ) : ℤ :=
  let e0 : ℤ := (ilog2 a.num.natAbs : ℤ) - (ilog2 a.den : ℤ)
  if pow2 e0 ≤ a then e0 else e0 - 1

/-- Round to the nearest integer, ties to the even one. -/
def rne (q : ℚ) : ℤ :=
  let f := ⌊q⌋
  let r := q - f
  if r < 1 / 2 then f else if 1 / 2 < r then f + 1 else if f % 2 = 0 then f else f + 1

/-- Round a positive rational to 53 significant bits (exponent at least `-1022`, so that
small values are rounded on the subnormal grid), ties to even. -/
def roundMag (a : ℚ) : ℚ :=
  let e := max (floorLog2 a) (-1022)
  let ulp := pow2 (e - 52)
  (rne (a / ulp) : ℚ) * ulp

namespace F64

/-- Round an exact result to `float64`: nearest value, ties to even, overflow to an
infinity, and a negative result that rounds to zero is `-0`. -/
def round (q : ℚ) : F64 :=
  if q = 0 then fin 0
  else
    let r := roundMag |q|
    if pow2 1024 ≤ r then inf (decide (q < 0))
    else if q < 0 then (if r = 0 then negZero else fin (-r))
    else fin r

/-- Conversion `float64(n)` of an unsigned integer. -/
def ofNat (n : Nat) : F64 := round n

/-- Sign bit. -/
def isNeg : F64 → Bool
  | fin q => decide (q < 0)
  | negZero => true
  | inf s => s
  | nan => false

/-- Value of a finite `float64` (zero for the others). -/
def val : F64 → ℚ
  | fin q => q
  | _ => 0

/-- Zero with the given sign. -/
def zero (neg : Bool) : F64 := if neg then negZero else fin 0

/-- The comparison `x > y` of two `float64` values. -/
def gt : F64 → F64 → Bool
  | nan, _ => false
  | _, nan => false
  | inf a, inf b => !a && b
  | inf a, _ => !a
  | _, inf b => b
  | x, y => decide (y.val < x.val)

/-- The comparison `x <= y` of two `float64` values. -/
def le : F64 → F64 → Bool
  | nan, _ => false
  | _, nan => false
  | inf a, inf b => a || !b
  | inf a, _ => a
  | _, inf b => !b
  | x, y => decide (x.val ≤ y.val)

/-- The quotient `x / y` of two `float64` values. -/
def div : F64 → F64 → F64
  | nan, _ => nan
  | _, nan => nan
  | inf _, inf _ => nan
  | inf a, y => inf (a != y.isNeg)
  | x, inf b => zero (x.isNeg != b)
  | x, y =>
    if y.val = 0 then (if x.val = 0 then nan else inf (x.isNeg != y.isNeg))
    else if x.val = 0 then zero (x.isNeg != y.isNeg)
    else round (x.val / y.val)

/-- The product `x * y` of two `float64` values. -/
def mul : F64 → F64 → F64
  | nan, _ => nan
  | _, nan => nan
  | inf a, y => if y.val = 0 ∧ y ≠ inf true ∧ y ≠ inf false then nan else inf (a != y.isNeg)
  | x, inf b => if x.val = 0 then nan else inf (x.isNeg != b)
  | x, y =>
    if x.val = 0 ∨ y.val = 0 then zero (x.isNeg != y.isNeg)
    else round (x.val * y.val)

/-- The sum `x + y` of two `float64` values. -/
def add : F64 → F64 → F64
  | nan, _ => nan
  | _, nan => nan
  | inf a, inf b => if a = b then inf a else nan
  | inf a, _ => inf a
  | _, inf b => inf b
  | negZero, negZero => negZero
  | x, y => round (x.val + y.val)

/-- Conversion `uint64(x)`: truncation towards zero, defined when the truncated value is
a `uint64`. -/
def toUInt64 : F64 → Option Nat
  | fin q => if -1 < q ∧ q < (u64 : ℚ) then some ⌊q⌋.toNat else none
  | negZero => some 0
  | _ => none

end F64

/-! ## `fmt.Sprintf` -/

/-- Pad with spaces on the left up to `w` characters (`%Ws`). -/
def padLeft (w : Nat) (s : String) : String :=
  String.mk (List.replicate (w - s.length) ' ') ++ s

/-- Pad with spaces on the right up to `w` characters (`%-Ws`). -/
def padRight (w : Nat) (s : String) : String :=
  s ++ String.mk (List.replicate (w - s.length) ' ')

/-- The digits after the decimal point: `k` written with exactly `prec` digits. -/
def fracDigits (prec k : Nat) : String :=
  String.mk (List.replicate (prec - (Nat.repr k).length) '0') ++ Nat.repr k

/-- Decimal text of a non-negative number with `prec` digits after the point, the last
digit correctly rounded (ties to even). -/
def fixedMag (prec : Nat) (a : ℚ) : String :=
  let k := (rne (a * 10 ^ prec)).toNat
  if prec = 0 then Nat.repr k
  else Nat.repr (k / 10 ^ prec) ++ "." ++ fracDigits prec (k % 10 ^ prec)

/-- The verb `%W.Pf` (width `w`, precision `prec`) applied to a `float64`. -/
def fmtF (w prec : Nat) : F64 → String
  | F64.nan => padLeft w "NaN"
  | F64.inf false => padLeft w "+Inf"
  | F64.inf true => padLeft w "-Inf"
  | F64.negZero => padLeft w ("-" ++ fixedMag prec 0)
  | F64.fin q => padLeft w ((if q < 0 then "-" else "") ++ fixedMag prec |q|)

/-- The verb `%Wd` (width `w`) applied to an unsigned integer. -/
def fmtD (w : Nat) (v : Nat) : String := padLeft w (Nat.repr v)

/-! ## `formatData` -/

/-- The closure `fmtSize` of `formatData`: the precision depends on the magnitude. -/
def fmtSize (n : F64) (u : String) : String :=
  if F64.gt n (F64.fin 100) then fmtF 5 1 n ++ " " ++ u
  else if F64.gt n (F64.fin 10) then fmtF 5 2 n ++ " " ++ u
  else fmtF 5 3 n ++ " " ++ u

/-- The function `formatData`: a raw amount of bytes as a readable string. -/
def formatData (v : Nat) : String :=
  if v > 10 ^ 12 then fmtSize (F64.div (F64.ofNat v) (F64.fin (10 ^ 12))) "TB"
  else if v > 10 ^ 9 then fmtSize (F64.div (F64.ofNat v) (F64.fin (10 ^ 9))) "GB"
  else if v > 10 ^ 6 then fmtSize (F64.div (F64.ofNat v) (F64.fin (10 ^ 6))) "MB"
  else if v > 10 ^ 3 then fmtSize (F64.div (F64.ofNat v) (F64.fin (10 ^ 3))) "kB"
  else fmtD 5 v ++ "  B"

/-- The scaling table of `formatData`, largest unit first: threshold and unit name. -/
def units : List (Nat × String) :=
  [(10 ^ 12, "TB"), (10 ^ 9, "GB"), (10 ^ 6, "MB"), (10 ^ 3, "kB")]

/-- The unit the specification selects for `v`: the first entry of `units` (the largest
threshold) that `v` strictly exceeds, or none when `v` stays in bytes. -/
def unitOf (v : Nat) : Option (Nat × String) := units.find? (fun t => decide (t.1 < v))

/-! ## Segments and colours -/

/-- The struct `segment`: one block of the bar. -/
structure Segment where
  text : String
  color : String
  urgent : Bool
  seperateAfter : Bool
  deriving DecidableEq

def red : String := "#C83737"

def orange : String := "#DA7D3E"

def green : String := "#A5CB76"

def white : String := "#E6E6E6"

/-- The constant `.9` as a `float64`. -/
def c90 : F64 := F64.round (9 / 10)

/-- The constant `.75` as a `float64`. -/
def c75 : F64 := F64.round (3 / 4)

/-- The three-way colour choice the specification describes for a percentage. -/
def tierColor (p : F64) : String :=
  if F64.gt p c90 then red else if F64.gt p c75 then orange else green

/-! ## What the readers return -/

/-- The fields of `syscall.Statfs_t` that `main` reads. -/
structure Statfs where
  blocks : Nat
  bavail : Nat
  bsize : Int

/-- The fields of `linux.MemInfo` that `main` reads. -/
structure MemInfo where
  memTotal : Nat
  memAvailable : Nat

/-- The fields of `linux.NetStat` that `main` reads. -/
structure NetStat where
  inOctets : Nat
  outOctets : Nat

/-- The fields of `stat.CPUStatAll` that `main` reads. -/
structure CPUStat where
  user : Nat
  nice : Nat
  system : Nat
  ioWait : Nat
  idle : Nat

/-- The fields of `linux.LoadAvg`. -/
structure LoadAvg where
  last1Min : F64
  last5Min : F64
  last15Min : F64

/-- Everything one pass of the loop reads from outside: the result of each of the five
readers (the error carries `err.Error()`) and the formatted clock. -/
structure Inputs where
  fs : Except String Statfs
  mem : Except String MemInfo
  net : Except String NetStat
  cpu : Except String CPUStat
  load : Except String LoadAvg
  now : String

/-! ## The loop of `main` -/

/-- The variables `main` declares before its loop. -/
structure Vars where
  segments : List Segment
  color : String
  dused : Nat
  dtotal : Nat
  dpercent : F64
  mused : Nat
  mtotal : Nat
  mpercent : F64
  oldRx : Nat
  newRx : Nat
  oldTx : Nat
  newTx : Nat
  oldBusy : Nat
  newBusy : Nat
  newIdle : Nat
  oldIdle : Nat
  cpercent : F64

/-- The variables at process start: every one has its zero value. -/
def Vars.init : Vars :=
  { segments := [], color := "", dused := 0, dtotal := 0, dpercent := F64.fin 0,
    mused := 0, mtotal := 0, mpercent := F64.fin 0, oldRx := 0, newRx := 0, oldTx := 0,
    newTx := 0, oldBusy := 0, newBusy := 0, newIdle := 0, oldIdle := 0,
    cpercent := F64.fin 0 }

/-- The constant `time.Second`, in nanoseconds. -/
def second : Nat := 10 ^ 9

/-- The method `Duration.Seconds` of a non-negative duration `d` (nanoseconds). -/
def seconds (d : Nat) : F64 :=
  F64.add (F64.ofNat (d / second)) (F64.div (F64.ofNat (d % second)) (F64.fin (10 ^ 9)))

/-- The expression `delta / uint64(sleepDur.Seconds())`; there is no result when the
conversion is not defined or the divisor is zero. -/
def perSecond (delta d : Nat) : Option Nat :=
  match (seconds d).toUInt64 with
  | some 0 => none
  | some s => some (delta / s)
  | none => none

/-- The section `// Disk` of the loop. -/
def diskStep (r : Except String Statfs) (s : Vars) : Vars :=
  match r with
  | .error e => { s with segments := s.segments ++ [⟨"fs: " ++ e, red, false, true⟩] }
  | .ok statfs =>
    let s : Vars := { s with dused := mul64 (sub64 statfs.blocks statfs.bavail) (ofInt64 statfs.bsize) }
    let s : Vars := { s with dtotal := mul64 statfs.blocks (ofInt64 statfs.bsize) }
    let s : Vars := { s with dpercent := F64.div (F64.ofNat s.dused) (F64.ofNat s.dtotal) }
    let s : Vars := { s with color := (if F64.gt s.dpercent c90 then red
      else if F64.gt s.dpercent c75 then orange else green) }
    { s with segments := s.segments ++
        [⟨"fs", white, false, false⟩,
         ⟨padLeft 9 (formatData s.dused) ++ " / " ++ padRight 9 (formatData s.dtotal),
          s.color, false, true⟩] }

/-- The section `// Memory` of the loop. -/
def memStep (r : Except String MemInfo) (s : Vars) : Vars :=
  match r with
  | .error e => { s with segments := s.segments ++ [⟨"mem: " ++ e, red, false, true⟩] }
  | .ok meminfo =>
    let s : Vars := { s with
      mused := sub64 (mul64 meminfo.memTotal 1024) (mul64 meminfo.memAvailable 1024) }
    let s : Vars := { s with mtotal := mul64 meminfo.memTotal 1024 }
    let s : Vars := { s with mpercent := F64.div (F64.ofNat s.mused) (F64.ofNat s.mtotal) }
    let s : Vars := { s with color := (if F64.gt s.mpercent c90 then red
      else if F64.gt s.mpercent c75 then orange else green) }
    { s with segments := s.segments ++
        [⟨"mem", white, false, false⟩,
         ⟨padLeft 9 (formatData
              (sub64 (mul64 meminfo.memTotal 1024) (mul64 meminfo.memAvailable 1024)))
            ++ " / " ++ padRight 9 (formatData (mul64 meminfo.memTotal 1024)),
          s.color, false, true⟩] }

/-- The section `// Network speed` of the loop, for the interval `sleepDur`. -/
def netStep (sleepDur : Nat) (r : Except String NetStat) (s : Vars) : Option Vars :=
  match r with
  | .error e => some { s with segments := s.segments ++ [⟨"net: " ++ e, red, false, true⟩] }
  | .ok netstat =>
    let s : Vars := { s with newRx := netstat.inOctets }
    let s : Vars := { s with newTx := netstat.outOctets }
    match perSecond (sub64 s.newRx s.oldRx) sleepDur, perSecond (sub64 s.newTx s.oldTx) sleepDur with
    | some rx, some tx =>
      let s : Vars := { s with segments := s.segments ++
        [⟨"net", white, false, false⟩,
         ⟨"↓ " ++ (formatData rx ++ "/s") ++ " ↑ " ++ (formatData tx ++ "/s"),
          white, false, true⟩] }
      let s : Vars := { s with oldRx := s.newRx }
      some { s with oldTx := s.newTx }
    | _, _ => none

/-- The sum `User + Nice + System + IOWait` of the cumulative tick counters. -/
def busyTotal (c : CPUStat) : Nat := add64 (add64 (add64 c.user c.nice) c.system) c.ioWait

/-- The section `// CPU usage` of the loop. -/
def cpuStep (r : Except String CPUStat) (s : Vars) : Vars :=
  match r with
  | .error e => { s with segments := s.segments ++ [⟨"cpu: " ++ e, red, false, true⟩] }
  | .ok stat =>
    let s : Vars := { s with newBusy := sub64 (busyTotal stat) s.oldBusy }
    let s : Vars := { s with newIdle := sub64 stat.idle s.oldIdle }
    let s : Vars := { s with
      cpercent := F64.div (F64.ofNat s.newBusy) (F64.ofNat (add64 s.newBusy s.newIdle)) }
    let s : Vars := { s with color := (if F64.gt s.cpercent c90 then red
      else if F64.gt s.cpercent c75 then orange else green) }
    let s : Vars := { s with segments := s.segments ++
        [⟨"cpu", white, false, false⟩,
         ⟨fmtF 5 1 (F64.mul s.cpercent (F64.fin 100)) ++ "%", s.color, false, true⟩] }
    let s : Vars := { s with oldBusy := busyTotal stat }
    { s with oldIdle := stat.idle }

/-- The section `// System load` of the loop; `numCPU` is `runtime.NumCPU()`. -/
def loadStep (numCPU : Nat) (r : Except String LoadAvg) (s : Vars) : Vars :=
  match r with
  | .error e => { s with segments := s.segments ++ [⟨"load: " ++ e, red, false, true⟩] }
  | .ok loadAvg =>
    let s : Vars := { s with color := (if F64.gt loadAvg.last1Min (F64.ofNat numCPU) then red
      else if F64.gt loadAvg.last1Min (F64.div (F64.ofNat numCPU) (F64.fin 2)) then orange
      else green) }
    { s with segments := s.segments ++
        [⟨"load", white, false, false⟩,
         ⟨fmtF 0 2 loadAvg.last1Min ++ " " ++ fmtF 0 2 loadAvg.last5Min ++ " "
            ++ fmtF 0 2 loadAvg.last15Min,
          s.color, false, true⟩] }

/-- The section `// Clock` of the loop. -/
def clockStep (now : String) (s : Vars) : Vars :=
  { s with segments := s.segments ++ [⟨now, white, false, true⟩] }

/-- One pass through the loop body up to the clock: the bar is cleared, then the six
sections run in order. There is no result when the network section has none. -/
def cycle (sleepDur numCPU : Nat) (i : Inputs) (s : Vars) : Option Vars :=
  let s : Vars := { s with segments := [] }
  let s := diskStep i.fs s
  let s := memStep i.mem s
  match netStep sleepDur i.net s with
  | none => none
  | some s =>
    let s := cpuStep i.cpu s
    let s := loadStep numCPU i.load s
    some (clockStep i.now s)

/-- The variables after a sequence of passes, oldest first. -/
def run (sleepDur numCPU : Nat) : List Inputs → Vars → Option Vars
  | [], s => some s
  | i :: rest, s =>
    match cycle sleepDur numCPU i s with
    | none => none
    | some s => run sleepDur numCPU rest s

/-! ## Standard output -/

/-- The function `println`: one write to standard output, of `s` and a newline. The
output so far is the list of writes. -/
def println (stdout : List String) (s : String) : List String := stdout ++ [s ++ "\n"]

/-- What `main` prints before its loop. -/
def startup : List String :=
  println (println (println [] "\x7b\"version\":1\x7d") "[") "[]"

/-- The section `// Print the array` of the loop; `m` is what `json.Marshal(segments)`
returned (on an error the byte slice is nil). -/
def printArray (m : Except String String) (stdout : List String) : List String :=
  let out : String := match m with
    | .ok b => b
    | .error _ => ""
  let stdout := match m with
    | .error e => println stdout (",[\x7b\"full_text\":\"error: " ++ e ++ "\"\x7d]")
    | .ok _ => stdout
  println stdout ("," ++ out)

/-- The block the specification describes for one metric: one red segment carrying the
error on a failed read, a white label and a value segment on a successful one. -/
def blockOf (label : String) : Except String (String × String) → List Segment
  | .error e => [⟨label ++ ": " ++ e, red, false, true⟩]
  | .ok (text, color) => [⟨label, white, false, false⟩, ⟨text, color, false, true⟩]

/-- Text and colour of the disk value, from the disk reading alone. -/
def fsValue (f : Statfs) : String × String :=
  let used := mul64 (sub64 f.blocks f.bavail) (ofInt64 f.bsize)
  let total := mul64 f.blocks (ofInt64 f.bsize)
  (padLeft 9 (formatData used) ++ " / " ++ padRight 9 (formatData total),
   tierColor (F64.div (F64.ofNat used) (F64.ofNat total)))

/-- Text and colour of the memory value, from the memory reading alone. -/
def memValue (m : MemInfo) : String × String :=
  let used := sub64 (mul64 m.memTotal 1024) (mul64 m.memAvailable 1024)
  let total := mul64 m.memTotal 1024
  (padLeft 9 (formatData used) ++ " / " ++ padRight 9 (formatData total),
   tierColor (F64.div (F64.ofNat used) (F64.ofNat total)))

/-- Text and colour of the network value, from the reading and the stored counters,
for an interval of `secs` seconds. -/
def netValue (secs oldRx oldTx : Nat) (n : NetStat) : String × String :=
  ("↓ " ++ (formatData (sub64 n.inOctets oldRx / secs) ++ "/s") ++ " ↑ "
     ++ (formatData (sub64 n.outOctets oldTx / secs) ++ "/s"), white)

/-- The CPU percentage of a reading against the stored totals, as a fraction. -/
def cpuFraction (oldBusy oldIdle : Nat) (c : CPUStat) : F64 :=
  let busy := sub64 (busyTotal c) oldBusy
  let idle := sub64 c.idle oldIdle
  F64.div (F64.ofNat busy) (F64.ofNat (add64 busy idle))

/-- Text and colour of the CPU value, from the reading and the stored totals. -/
def cpuValue (oldBusy oldIdle : Nat) (c : CPUStat) : String × String :=
  (fmtF 5 1 (F64.mul (cpuFraction oldBusy oldIdle c) (F64.fin 100)) ++ "%",
   tierColor (cpuFraction oldBusy oldIdle c))

/-- The colour the specification gives a load `l` on `n` cores, the thresholds being the
exact numbers `n` and `n / 2`; a load that is not a number compares as false. -/
def loadColor (n : Nat) (l : F64) : String :=
  if F64.gt l (F64.fin n) then red
  else if F64.gt l (F64.fin ((n : ℚ) / 2)) then orange
  else green

/-- Text and colour of the load value, from the load reading alone. -/
def loadValue (numCPU : Nat) (l : LoadAvg) : String × String :=
  (fmtF 0 2 l.last1Min ++ " " ++ fmtF 0 2 l.last5Min ++ " " ++ fmtF 0 2 l.last15Min,
   if F64.gt l.last1Min (F64.ofNat numCPU) then red
   else if F64.gt l.last1Min (F64.div (F64.ofNat numCPU) (F64.fin 2)) then orange
   else green)

/-- The cumulative CPU totals (busy, idle) a pass reads, when its CPU read succeeds. -/
def cpuTotals (i : Inputs) : Option (Nat × Nat) :=
  match i.cpu with
  | .ok c => some (busyTotal c, c.idle)
  | .error _ => none

/-- The cumulative CPU totals (busy, idle) of the last successful CPU read in a sequence
of passes, oldest first; zero when there is none. -/
def lastCpu (past : List Inputs) : Nat × Nat :=
  (past.reverse.findSome? cpuTotals).getD (0, 0)

/-- The number a list of decimal digits denotes. -/
def digitsValue (l : List Char) : Nat := l.foldl (fun a c => 10 * a + (c.toNat - 48)) 0

/-- Read a displayed number back: leading spaces, decimal digits and, optionally, a point
followed by decimal digits. -/
def readDecimal (s : String) : Option ℚ :=
  let l := s.data.dropWhile (fun c => c == ' ')
  let ip := l.takeWhile Char.isDigit
  match l.dropWhile Char.isDigit with
  | [] => if ip = [] then none else some ((digitsValue ip : ℕ) : ℚ)
  | c :: fr =>
    if c = '.' ∧ ip ≠ [] ∧ fr ≠ [] ∧ fr.all Char.isDigit = true then
      some ((digitsValue ip : ℚ) + (digitsValue fr : ℚ) / 10 ^ fr.length)
    else none

/-- A pass in which every read succeeds. -/
def sampleOk : Inputs :=
  { fs := .ok ⟨10, 1, 1⟩, mem := .ok ⟨8, 2⟩, net := .ok ⟨2000, 3000⟩,
    cpu := .ok ⟨1, 1, 1, 1, 4⟩,
    load := .ok ⟨F64.fin 1, F64.fin 2, F64.fin (5 / 2)⟩, now := "2024-01-01 00:00:00" }

/-- A later pass in which the network and the CPU read fail. -/
def sampleFail : Inputs :=
  { fs := .ok ⟨10, 1, 1⟩, mem := .ok ⟨8, 2⟩, net := .error "no netstat",
    cpu := .error "no stat",
    load := .ok ⟨F64.fin 1, F64.fin 2, F64.fin (5 / 2)⟩, now := "2024-01-01 00:00:01" }

/-! ## Strings -/

theorem length_padLeft (w : Nat) (s : String) :
    (padLeft w s).length = (w - s.length) + s.length := by
  simp [padLeft, String.length_append]

theorem le_length_padLeft (w : Nat) (s : String) : w ≤ (padLeft w s).length := by
  rw [length_padLeft]; omega

theorem length_padLeft_of_le (w : Nat) (s : String) (h : s.length ≤ w) :
    (padLeft w s).length = w := by
  rw [length_padLeft]; omega

theorem length_fracDigits (prec k : Nat) (hp : 0 < prec) (hk : k < 10 ^ prec) :
    (fracDigits prec k).length = prec := by
  have h := Nat.repr_length k prec hp hk
  simp [fracDigits, String.length_append]
  omega

/-! ## Rounding -/

theorem pow2_eq (e : ℤ) : pow2 e = (2 : ℚ) ^ e := by
  unfold pow2
  split_ifs with h
  · obtain ⟨n, rfl⟩ := Int.eq_ofNat_of_zero_le h
    simp
  · have h1 : 0 ≤ -e := by omega
    obtain ⟨n, hn⟩ := Int.eq_ofNat_of_zero_le h1
    have he : e = -(n : ℤ) := by omega
    subst he
    simp

theorem log2Aux_spec : ∀ fuel n : Nat, 1 ≤ n → n ≤ fuel →
    2 ^ log2Aux fuel n ≤ n ∧ n < 2 ^ (log2Aux fuel n + 1)
  | 0, n, h1, h2 => by omega
  | fuel + 1, n, h1, h2 => by
    unfold log2Aux
    split_ifs with h
    · simp; omega
    · have ih := log2Aux_spec fuel (n / 2) (by omega) (by omega)
      obtain ⟨a, b⟩ := ih
      constructor
      · rw [pow_succ]; omega
      · rw [pow_succ]; omega

theorem ilog2_spec (n : Nat) (h : 1 ≤ n) : 2 ^ ilog2 n ≤ n ∧ n < 2 ^ (ilog2 n + 1) :=
  log2Aux_spec n n h le_rfl

theorem floorLog2_aux (N D : ℚ) (i j : ℕ) (hD : 0 < D) (n1 : (2 : ℚ) ^ i ≤ N)
    (n2 : N < (2 : ℚ) ^ (i + 1)) (d1 : (2 : ℚ) ^ j ≤ D) (d2 : D < (2 : ℚ) ^ (j + 1)) :
    (2 : ℚ) ^ ((i : ℤ) - (j : ℤ) - 1) ≤ N / D ∧ N / D < (2 : ℚ) ^ ((i : ℤ) - (j : ℤ) + 1) := by
  have e0 : (2 : ℚ) ^ ((i : ℤ) - (j : ℤ)) = (2 : ℚ) ^ i / (2 : ℚ) ^ j := by
    rw [zpow_sub₀ (by norm_num), zpow_natCast, zpow_natCast]
  have hpj : (0 : ℚ) < (2 : ℚ) ^ j := by positivity
  have hpi : (0 : ℚ) < (2 : ℚ) ^ i := by positivity
  have hN : 0 < N := lt_of_lt_of_le hpi n1
  constructor
  · rw [zpow_sub₀ (by norm_num), e0, zpow_one, div_div, div_le_div_iff₀ (by positivity) hD]
    calc (2 : ℚ) ^ i * D ≤ N * D := by gcongr
      _ ≤ N * (2 ^ j * 2) := by
        have : D ≤ 2 ^ j * 2 := by
          rw [← pow_succ]; exact d2.le
        gcongr
  · rw [zpow_add_one₀ (by norm_num), e0, div_mul_eq_mul_div, div_lt_div_iff₀ hD hpj]
    calc N * 2 ^ j ≤ N * D := by gcongr
      _ < 2 ^ (i + 1) * D := by gcongr
      _ = 2 ^ i * 2 * D := by ring

theorem floorLog2_spec (a : ℚ) (ha : 0 < a) :
    (2 : ℚ) ^ floorLog2 a ≤ a ∧ a < (2 : ℚ) ^ (floorLog2 a + 1) := by
  have hnum : 0 < a.num := Rat.num_pos.mpr ha
  have hN : 1 ≤ a.num.natAbs := by omega
  have hD : 1 ≤ a.den := a.den_pos
  obtain ⟨n1, n2⟩ := ilog2_spec _ hN
  obtain ⟨d1, d2⟩ := ilog2_spec _ hD
  have hq : (a.num.natAbs : ℚ) / (a.den : ℚ) = a := by
    have h := Rat.num_div_den a
    rw [← Int.cast_natCast, Int.natAbs_of_nonneg hnum.le]
    exact h
  have aux := floorLog2_aux (a.num.natAbs : ℚ) (a.den : ℚ) (ilog2 a.num.natAbs) (ilog2 a.den)
    (by exact_mod_cast hD) (by exact_mod_cast n1) (by exact_mod_cast n2)
    (by exact_mod_cast d1) (by exact_mod_cast d2)
  rw [hq] at aux
  unfold floorLog2
  simp only [pow2_eq]
  split_ifs with h
  · exact ⟨h, aux.2⟩
  · push_neg at h
    exact ⟨aux.1, by simpa using h⟩

theorem rne_intCast (z : ℤ) : rne (z : ℚ) = z := by
  simp [rne]

theorem rne_bounds (q : ℚ) : ⌊q⌋ ≤ rne q ∧ rne q ≤ ⌊q⌋ + 1 := by
  unfold rne
  simp only
  split_ifs <;> constructor <;> omega

theorem rne_nonneg (q : ℚ) (h : 0 ≤ q) : 0 ≤ rne q :=
  le_trans (Int.floor_nonneg.mpr h) (rne_bounds q).1

theorem rne_le_of_lt_half (q : ℚ) (z : ℤ) (h : q < z + 1 / 2) : rne q ≤ z := by
  have hf : ⌊q⌋ ≤ z := by
    by_contra hc
    push_neg at hc
    have h1 : z + 1 ≤ ⌊q⌋ := hc
    have h2 : ((z + 1 : ℤ) : ℚ) ≤ q := le_trans (by exact_mod_cast h1) (Int.floor_le q)
    push_cast at h2
    linarith
  rcases lt_or_eq_of_le hf with hlt | heq
  · have := (rne_bounds q).2
    omega
  · unfold rne
    simp only
    have : q - ⌊q⌋ < 1 / 2 := by rw [heq]; linarith
    rw [if_pos this]
    exact hf

theorem roundMag_exact (m : ℕ) (k : ℤ) (hm : 0 < m) (hm53 : m < 2 ^ 53) (hk : -1074 ≤ k) :
    roundMag ((m : ℚ) * (2 : ℚ) ^ k) = (m : ℚ) * (2 : ℚ) ^ k := by
  have h2k : (0 : ℚ) < (2 : ℚ) ^ k := zpow_pos (by norm_num) k
  have ha : (0 : ℚ) < (m : ℚ) * (2 : ℚ) ^ k := by positivity
  obtain ⟨lo, -⟩ := floorLog2_spec _ ha
  have hlt : (2 : ℚ) ^ floorLog2 ((m : ℚ) * (2 : ℚ) ^ k) < (2 : ℚ) ^ ((53 : ℤ) + k) := by
    refine lt_of_le_of_lt lo ?_
    rw [zpow_add₀ (by norm_num)]
    have : (m : ℚ) < (2 : ℚ) ^ (53 : ℤ) := by
      have h : (m : ℚ) < ((9007199254740992 : ℕ) : ℚ) := by exact_mod_cast hm53
      norm_num at h ⊢
      exact h
    gcongr
  have he : floorLog2 ((m : ℚ) * (2 : ℚ) ^ k) < 53 + k :=
    (zpow_lt_zpow_iff_right₀ (by norm_num : (1 : ℚ) < 2)).mp hlt
  unfold roundMag
  simp only [pow2_eq]
  generalize floorLog2 ((m : ℚ) * (2 : ℚ) ^ k) = e at he
  obtain ⟨t, ht⟩ : ∃ t : ℕ, k = (max e (-1022) - 52) + t :=
    ⟨(k - (max e (-1022) - 52)).toNat, by omega⟩
  generalize max e (-1022) - 52 = c at ht
  subst ht
  have hc : (0 : ℚ) < (2 : ℚ) ^ c := zpow_pos (by norm_num) c
  have hdiv : (m : ℚ) * (2 : ℚ) ^ (c + (t : ℤ)) / (2 : ℚ) ^ c = ((m * 2 ^ t : ℤ) : ℚ) := by
    rw [zpow_add₀ (by norm_num), zpow_natCast]
    field_simp
    ring
  rw [hdiv, rne_intCast, zpow_add₀ (by norm_num), zpow_natCast]
  push_cast
  ring

theorem roundMag_bounds (a : ℚ) (ha : 0 < a) (he : -1022 ≤ floorLog2 a) :
    (2 : ℚ) ^ floorLog2 a ≤ roundMag a ∧ roundMag a ≤ (2 : ℚ) ^ (floorLog2 a + 1) := by
  obtain ⟨lo, hi⟩ := floorLog2_spec a ha
  unfold roundMag
  simp only [pow2_eq, max_eq_left he]
  generalize floorLog2 a = e at lo hi
  have hu : (0 : ℚ) < (2 : ℚ) ^ (e - 52) := zpow_pos (by norm_num) _
  have e1 : (2 : ℚ) ^ e = 4503599627370496 * (2 : ℚ) ^ (e - 52) := by
    have h : (2 : ℚ) ^ e = (2 : ℚ) ^ (52 : ℤ) * (2 : ℚ) ^ (e - 52) := by
      rw [← zpow_add₀ (by norm_num)]
      congr 1
      ring
    rw [h]
    norm_num
  have e2 : (2 : ℚ) ^ (e + 1) = 9007199254740992 * (2 : ℚ) ^ (e - 52) := by
    rw [zpow_add_one₀ (by norm_num), e1]
    ring
  have x1 : ((4503599627370496 : ℤ) : ℚ) ≤ a / (2 : ℚ) ^ (e - 52) := by
    rw [le_div_iff₀ hu]
    push_cast
    rw [← e1]
    exact lo
  have x2 : a / (2 : ℚ) ^ (e - 52) < ((9007199254740992 : ℤ) : ℚ) := by
    rw [div_lt_iff₀ hu]
    push_cast
    rw [← e2]
    exact hi
  have f1 : (4503599627370496 : ℤ) ≤ ⌊a / (2 : ℚ) ^ (e - 52)⌋ := Int.le_floor.mpr x1
  have f2 : ⌊a / (2 : ℚ) ^ (e - 52)⌋ < (9007199254740992 : ℤ) := Int.floor_lt.mpr x2
  obtain ⟨r1, r2⟩ := rne_bounds (a / (2 : ℚ) ^ (e - 52))
  have g1 : ((4503599627370496 : ℤ) : ℚ) ≤ (rne (a / (2 : ℚ) ^ (e - 52)) : ℚ) := by
    exact_mod_cast le_trans f1 r1
  have g2 : (rne (a / (2 : ℚ) ^ (e - 52)) : ℚ) ≤ ((9007199254740992 : ℤ) : ℚ) := by
    have : rne (a / (2 : ℚ) ^ (e - 52)) ≤ (9007199254740992 : ℤ) := by omega
    exact_mod_cast this
  push_cast at g1 g2
  rw [e1, e2]
  constructor
  · gcongr
  · gcongr

theorem F64.round_between (a : ℚ) (i j : ℤ) (hi : -1022 ≤ i) (hj : j ≤ 1023)
    (h1 : (2 : ℚ) ^ i ≤ a) (h2 : a < (2 : ℚ) ^ j) :
    ∃ r : ℚ, F64.round a = F64.fin r ∧ (2 : ℚ) ^ i ≤ r ∧ r ≤ (2 : ℚ) ^ j := by
  have ha : 0 < a := lt_of_lt_of_le (zpow_pos (by norm_num) i) h1
  obtain ⟨lo, hi2⟩ := floorLog2_spec a ha
  have two : (1 : ℚ) < 2 := by norm_num
  have ie : i < floorLog2 a + 1 :=
    (zpow_lt_zpow_iff_right₀ two).mp (lt_of_le_of_lt h1 hi2)
  have ej : floorLog2 a < j := (zpow_lt_zpow_iff_right₀ two).mp (lt_of_le_of_lt lo h2)
  obtain ⟨b1, b2⟩ := roundMag_bounds a ha (by omega)
  have c1 : (2 : ℚ) ^ i ≤ roundMag a :=
    le_trans (zpow_le_zpow_right₀ two.le (by omega)) b1
  have c2 : roundMag a ≤ (2 : ℚ) ^ j :=
    le_trans b2 (zpow_le_zpow_right₀ two.le (by omega))
  have c3 : roundMag a < (2 : ℚ) ^ (1024 : ℤ) :=
    lt_of_le_of_lt c2 (zpow_lt_zpow_right₀ two (by omega))
  refine ⟨roundMag a, ?_, c1, c2⟩
  unfold F64.round
  simp only [pow2_eq, abs_of_pos ha]
  rw [if_neg ha.ne', if_neg (not_le.mpr c3), if_neg (not_lt.mpr ha.le)]

theorem F64.round_exact (m : ℕ) (k : ℤ) (hm : 0 < m) (hm53 : m < 2 ^ 53) (hk : -1074 ≤ k)
    (hlt : (m : ℚ) * (2 : ℚ) ^ k < (2 : ℚ) ^ (1024 : ℤ)) :
    F64.round ((m : ℚ) * (2 : ℚ) ^ k) = F64.fin ((m : ℚ) * (2 : ℚ) ^ k) := by
  have ha : (0 : ℚ) < (m : ℚ) * (2 : ℚ) ^ k := by
    have := zpow_pos (by norm_num : (0 : ℚ) < 2) k
    positivity
  unfold F64.round
  simp only [pow2_eq, abs_of_pos ha, roundMag_exact m k hm hm53 hk]
  rw [if_neg ha.ne', if_neg (not_le.mpr hlt), if_neg (not_lt.mpr ha.le)]

theorem F64.ofNat_exact (n : ℕ) (h : n < 2 ^ 53) : F64.ofNat n = F64.fin n := by
  unfold F64.ofNat
  rcases Nat.eq_zero_or_pos n with rfl | hpos
  · simp [F64.round]
  · have := F64.round_exact n 0 hpos h (by norm_num) (by
      have : (n : ℚ) < ((2 ^ 53 : ℕ) : ℚ) := by exact_mod_cast h
      simp only [zpow_zero, mul_one]
      refine lt_trans this ?_
      norm_num)
    simpa using this

theorem F64.add_fin_fin (a b : ℚ) : F64.add (F64.fin a) (F64.fin b) = F64.round (a + b) := rfl

theorem F64.div_fin_fin (a b : ℚ) (ha : a ≠ 0) (hb : b ≠ 0) :
    F64.div (F64.fin a) (F64.fin b) = F64.round (a / b) := by
  simp [F64.div, F64.val, ha, hb]

/-! ## `formatData` -/

theorem F64.gt_eq_false_of_le (a b : F64) (h : F64.le a b = true) : F64.gt a b = false := by
  cases a <;> cases b <;> simp_all [F64.le, F64.gt]
  rename_i x y
  cases x <;> cases y <;> simp_all

theorem fmtSize_eq (n : F64) (u : String) :
    fmtSize n u =
      fmtF 5 (if F64.gt n (F64.fin 100) then 1 else if F64.gt n (F64.fin 10) then 2 else 3) n
        ++ " " ++ u := by
  unfold fmtSize
  split_ifs <;> rfl

theorem unitOf_eq (v : Nat) :
    unitOf v =
      if 1000000000000 < v then some (1000000000000, "TB")
      else if 1000000000 < v then some (1000000000, "GB")
      else if 1000000 < v then some (1000000, "MB")
      else if 1000 < v then some (1000, "kB")
      else none := by
  simp only [unitOf, units, List.find?]
  split_ifs <;> simp [*]

theorem formatData_eq (v : Nat) :
    formatData v =
      match unitOf v with
      | some (thr, u) => fmtSize (F64.div (F64.ofNat v) (F64.fin thr)) u
      | none => padLeft 5 (Nat.repr v) ++ "  B" := by
  rw [unitOf_eq]
  unfold formatData
  split_ifs <;> simp_all [fmtD] <;> norm_num

/-! ## Width of `formatData` -/

theorem length_fixedMag_le (prec : Nat) (q : ℚ) (hp : 0 < prec) (hp4 : prec < 4)
    (h : rne (q * 10 ^ prec) < 10000) : (fixedMag prec q).length ≤ 5 := by
  have hk : (rne (q * 10 ^ prec)).toNat < 10000 := by omega
  unfold fixedMag
  simp only [Nat.pos_iff_ne_zero.mp hp, if_false, String.length_append]
  rw [length_fracDigits _ _ hp (Nat.mod_lt _ (by positivity))]
  have hd : (rne (q * 10 ^ prec)).toNat / 10 ^ prec < 10 ^ (4 - prec) := by
    rw [Nat.div_lt_iff_lt_mul (by positivity), ← pow_add]
    have : 4 - prec + prec = 4 := by omega
    rw [this]
    exact hk
  have := Nat.repr_length _ (4 - prec) (by omega) hd
  have h1 : (".").length = 1 := rfl
  omega

theorem length_fmtF_fin (prec : Nat) (q : ℚ) (hq : 0 ≤ q) (hp : 0 < prec) (hp4 : prec < 4)
    (h : rne (q * 10 ^ prec) < 10000) : (fmtF 5 prec (F64.fin q)).length = 5 := by
  have hneg : ¬ q < 0 := not_lt.mpr hq
  have e : fmtF 5 prec (F64.fin q) = padLeft 5 (fixedMag prec q) := by
    simp [fmtF, hneg, abs_of_nonneg hq]
  rw [e]
  exact length_padLeft_of_le _ _ (length_fixedMag_le prec q hp hp4 h)

theorem unitOf_some (v thr : Nat) (u : String) (h : unitOf v = some (thr, u)) :
    thr < v ∧ u.length = 2 ∧ 1000 ≤ thr ∧ thr ≤ 1000000000000 := by
  rw [unitOf_eq] at h
  split_ifs at h <;> simp at h <;> obtain ⟨rfl, rfl⟩ := h <;> refine ⟨by omega, by decide, by omega, by omega⟩

theorem unitOf_none_iff (v : Nat) : unitOf v = none ↔ v ≤ 1000 := by
  rw [unitOf_eq]
  split_ifs <;> simp <;> omega

theorem formatData_of_some (v thr : Nat) (u : String) (h : unitOf v = some (thr, u)) :
    formatData v = fmtSize (F64.div (F64.ofNat v) (F64.fin thr)) u := by
  rw [formatData_eq, h]

theorem formatData_of_le (v : Nat) (h : v ≤ 1000) :
    formatData v = padLeft 5 (Nat.repr v) ++ "  B" := by
  rw [formatData_eq, (unitOf_none_iff v).mpr h]

theorem scaled_finite (v thr : Nat) (hv : v < u64) (h1 : 1 ≤ v) (ht1 : 1000 ≤ thr)
    (ht2 : thr ≤ 1000000000000) :
    ∃ q : ℚ, 0 < q ∧ F64.div (F64.ofNat v) (F64.fin thr) = F64.fin q := by
  have hvq : (v : ℚ) < (2 : ℚ) ^ (64 : ℤ) := by
    have : (v : ℚ) < ((18446744073709551616 : ℕ) : ℚ) := by
      have : v < 18446744073709551616 := hv
      exact_mod_cast this
    norm_num at this ⊢
    exact this
  have hv1 : (2 : ℚ) ^ (0 : ℤ) ≤ (v : ℚ) := by
    simp only [zpow_zero]
    exact_mod_cast h1
  obtain ⟨r, hr, r1, r2⟩ := F64.round_between (v : ℚ) 0 64 (by norm_num) (by norm_num) hv1 hvq
  have hthr1 : (1000 : ℚ) ≤ (thr : ℚ) := by exact_mod_cast ht1
  have hthr2 : (thr : ℚ) ≤ 1000000000000 := by exact_mod_cast ht2
  have hthr0 : (0 : ℚ) < thr := by linarith
  simp only [zpow_zero] at r1
  have rpos : 0 < r := by linarith
  have q1 : (2 : ℚ) ^ (-40 : ℤ) ≤ r / thr := by
    rw [le_div_iff₀ hthr0]
    have : (2 : ℚ) ^ (-40 : ℤ) * thr ≤ 1 := by
      have e : (2 : ℚ) ^ (-40 : ℤ) = 1 / 1099511627776 := by norm_num
      rw [e]
      linarith
    linarith
  have q2 : r / thr < (2 : ℚ) ^ (64 : ℤ) := by
    rw [div_lt_iff₀ hthr0]
    have : (0 : ℚ) < (2 : ℚ) ^ (64 : ℤ) := by positivity
    nlinarith
  obtain ⟨q, hq, q3, -⟩ := F64.round_between (r / thr) (-40) 64 (by norm_num) (by norm_num) q1 q2
  refine ⟨q, lt_of_lt_of_le (by positivity) q3, ?_⟩
  unfold F64.ofNat
  rw [hr]
  simp only [F64.div, F64.val]
  rw [if_neg hthr0.ne', if_neg rpos.ne', hq]

/-- Claim C3, amended. For every `uint64` byte count the result is at least 8 characters
wide; it is exactly 8 wide, with a numeric field of exactly 5, when the count is at most
1000, and when the scaled value `q` is below 9.9995, or between 10 and 99.995, or between
100 and 999.95 (bounds excluded); the scaled value is always a positive finite number. -/
theorem formatData_width (v : Nat) (hv : v < u64) :
    8 ≤ (formatData v).length ∧
    (v ≤ 1000 → (formatData v).length = 8 ∧
      ∃ field : String, field.length = 5 ∧ formatData v = field ++ "  B") ∧
    (∀ thr u, unitOf v = some (thr, u) →
      ∃ q : ℚ, 0 < q ∧ F64.div (F64.ofNat v) (F64.fin thr) = F64.fin q ∧
        (q < 9.9995 ∨ (10 < q ∧ q < 99.995) ∨ (100 < q ∧ q < 999.95) →
          (formatData v).length = 8 ∧
          ∃ field : String, field.length = 5 ∧ formatData v = field ++ " " ++ u)) := by
  have hB : ("  B").length = 3 := rfl
  have hsp : (" ").length = 1 := rfl
  have small : v ≤ 1000 → (padLeft 5 (Nat.repr v)).length = 5 := by
    intro h
    exact length_padLeft_of_le _ _ (Nat.repr_length v 5 (by norm_num) (by omega))
  refine ⟨?_, ?_, ?_⟩
  · cases hc : unitOf v with
    | none =>
      have hle := (unitOf_none_iff v).mp hc
      rw [formatData_of_le v hle, String.length_append, small hle]
      omega
    | some p =>
      obtain ⟨thr, u⟩ := p
      have h2 := (unitOf_some v thr u hc).2.1
      rw [formatData_of_some v thr u hc, fmtSize_eq]
      simp only [String.length_append]
      have := le_length_padLeft 5
      generalize (if F64.gt ((F64.ofNat v).div (F64.fin ↑thr)) (F64.fin 100) = true then 1
        else if F64.gt ((F64.ofNat v).div (F64.fin ↑thr)) (F64.fin 10) = true then 2 else 3) = p
      have h5 : 5 ≤ (fmtF 5 p ((F64.ofNat v).div (F64.fin ↑thr))).length := by
        cases hx : (F64.ofNat v).div (F64.fin ↑thr) with
        | fin q => exact le_length_padLeft _ _
        | negZero => exact le_length_padLeft _ _
        | inf b => cases b <;> exact le_length_padLeft _ _
        | nan => exact le_length_padLeft _ _
      omega
  · intro h
    rw [formatData_of_le v h]
    refine ⟨?_, _, small h, rfl⟩
    rw [String.length_append, small h, hB]
  · intro thr u hc
    obtain ⟨t1, u2, t3, t4⟩ := unitOf_some v thr u hc
    obtain ⟨q, qpos, hq⟩ := scaled_finite v thr hv (by omega) t3 t4
    refine ⟨q, qpos, hq, ?_⟩
    intro hrange
    have hf : formatData v = fmtSize (F64.fin q) u := by
      rw [formatData_of_some v thr u hc, hq]
    have key : ∃ p : Nat, fmtSize (F64.fin q) u = fmtF 5 p (F64.fin q) ++ " " ++ u ∧
        (fmtF 5 p (F64.fin q)).length = 5 := by
      rcases hrange with h | ⟨h1, h2⟩ | ⟨h1, h2⟩
      · refine ⟨3, ?_, ?_⟩
        · by_cases h10 : 10 < q
          · by_cases h100 : 100 < q
            · linarith
            · linarith
          · have h100 : ¬ 100 < q := by linarith
            simp [fmtSize, F64.gt, F64.val, h10, h100]
        · refine length_fmtF_fin 3 q qpos.le (by norm_num) (by norm_num) ?_
          have := rne_le_of_lt_half (q * 10 ^ 3) 9999 (by push_cast; linarith)
          omega
      · refine ⟨2, ?_, ?_⟩
        · have h100 : ¬ 100 < q := by linarith
          simp [fmtSize, F64.gt, F64.val, h1, h100]
        · refine length_fmtF_fin 2 q qpos.le (by norm_num) (by norm_num) ?_
          have := rne_le_of_lt_half (q * 10 ^ 2) 9999 (by push_cast; linarith)
          omega
      · refine ⟨1, ?_, ?_⟩
        · simp [fmtSize, F64.gt, F64.val, h1]
        · refine length_fmtF_fin 1 q qpos.le (by norm_num) (by norm_num) ?_
          have := rne_le_of_lt_half (q * 10 ^ 1) 9999 (by push_cast; linarith)
          omega
    obtain ⟨p, hp1, hp2⟩ := key
    refine ⟨?_, _, hp2, by rw [hf, hp1]⟩
    rw [hf, hp1]
    simp only [String.length_append]
    omega

/-- Witness of `formatData_width` at `v = 1500000000`: the scaled value is `3 / 2`. -/
theorem formatData_width_witness :
    (1500000000 < u64 ∧ unitOf 1500000000 = some (1000000000, "GB")) ∧
    8 ≤ (formatData 1500000000).length ∧
    ∃ q : ℚ, 0 < q ∧
      F64.div (F64.ofNat 1500000000) (F64.fin (1000000000 : Nat)) = F64.fin q ∧
      (q < 9.9995 ∨ (10 < q ∧ q < 99.995) ∨ (100 < q ∧ q < 999.95) →
        (formatData 1500000000).length = 8 ∧
        ∃ field : String, field.length = 5 ∧ formatData 1500000000 = field ++ " " ++ "GB") :=
  ⟨⟨by decide, by decide⟩, (formatData_width 1500000000 (by decide)).1,
   (formatData_width 1500000000 (by decide)).2.2 1000000000 "GB" (by decide)⟩

/-! ## The sections of the loop -/

theorem sub64_of_le (a b : Nat) (h : b ≤ a) (ha : a < u64) : sub64 a b = a - b := by
  simp only [sub64, u64] at *
  omega

theorem diskStep_segments (r : Except String Statfs) (s : Vars) :
    (diskStep r s).segments = s.segments ++ blockOf "fs" (r.map fsValue) := by
  cases r <;> rfl

theorem memStep_segments (r : Except String MemInfo) (s : Vars) :
    (memStep r s).segments = s.segments ++ blockOf "mem" (r.map memValue) := by
  cases r <;> rfl

theorem cpuStep_segments (r : Except String CPUStat) (s : Vars) :
    (cpuStep r s).segments
      = s.segments ++ blockOf "cpu" (r.map (cpuValue s.oldBusy s.oldIdle)) := by
  cases r <;> rfl

theorem loadStep_segments (n : Nat) (r : Except String LoadAvg) (s : Vars) :
    (loadStep n r s).segments = s.segments ++ blockOf "load" (r.map (loadValue n)) := by
  cases r <;> rfl

theorem seconds_whole (k : Nat) (hk : k < 2 ^ 53) : seconds (k * second) = F64.fin k := by
  have h1 : k * second / second = k := Nat.mul_div_cancel k (by decide)
  have h2 : k * second % second = 0 := Nat.mul_mod_left k second
  have h0 : F64.div (F64.ofNat 0) (F64.fin (10 ^ 9)) = F64.fin 0 := by decide!
  have hr : F64.round (k : ℚ) = F64.fin k := F64.ofNat_exact k hk
  unfold seconds
  rw [h1, h2, h0, F64.ofNat_exact k hk, F64.add_fin_fin, add_zero, hr]

theorem perSecond_whole (delta k : Nat) (h1 : 1 ≤ k) (hk : k < 2 ^ 53) :
    perSecond delta (k * second) = some (delta / k) := by
  have hq : (k : ℚ) < (u64 : ℚ) := by
    have : k < u64 := lt_trans hk (by decide)
    exact_mod_cast this
  have hnn : (-1 : ℚ) < (k : ℚ) := lt_of_lt_of_le (by norm_num) (Nat.cast_nonneg k)
  unfold perSecond
  rw [seconds_whole k hk]
  simp only [F64.toUInt64, hnn, hq, and_self, if_true, Int.floor_natCast, Int.toNat_ofNat]
  cases k with
  | zero => omega
  | succ m => rfl

theorem netStep_whole (k : Nat) (h1 : 1 ≤ k) (hk : k < 2 ^ 53) (r : Except String NetStat)
    (s : Vars) :
    ∃ t : Vars, netStep (k * second) r s = some t ∧
      t.segments = s.segments ++ blockOf "net" (r.map (netValue k s.oldRx s.oldTx)) ∧
      t.oldBusy = s.oldBusy ∧ t.oldIdle = s.oldIdle ∧
      (∀ n, r = .ok n → t.oldRx = n.inOctets ∧ t.oldTx = n.outOctets) ∧
      (∀ e, r = .error e → t.oldRx = s.oldRx ∧ t.oldTx = s.oldTx) := by
  cases r with
  | error e => exact ⟨_, rfl, rfl, rfl, rfl, by simp, by simp⟩
  | ok n =>
    simp only [netStep, perSecond_whole _ k h1 hk]
    exact ⟨_, rfl, rfl, rfl, rfl, by simp, by simp⟩

theorem one_mul_second : 1 * second = second := Nat.one_mul second

theorem cycle_whole (k : Nat) (h1 : 1 ≤ k) (hk : k < 2 ^ 53) (numCPU : Nat) (i : Inputs)
    (s : Vars) :
    ∃ t : Vars, cycle (k * second) numCPU i s = some t ∧
      t.segments =
        blockOf "fs" (i.fs.map fsValue) ++ blockOf "mem" (i.mem.map memValue) ++
        blockOf "net" (i.net.map (netValue k s.oldRx s.oldTx)) ++
        blockOf "cpu" (i.cpu.map (cpuValue s.oldBusy s.oldIdle)) ++
        blockOf "load" (i.load.map (loadValue numCPU)) ++ [⟨i.now, white, false, true⟩] ∧
      (∀ c, i.cpu = .ok c →
        t.newBusy = sub64 (busyTotal c) s.oldBusy ∧ t.newIdle = sub64 c.idle s.oldIdle ∧
        t.cpercent = F64.div (F64.ofNat t.newBusy) (F64.ofNat (add64 t.newBusy t.newIdle)) ∧
        t.oldBusy = busyTotal c ∧ t.oldIdle = c.idle) ∧
      (∀ e, i.cpu = .error e → t.oldBusy = s.oldBusy ∧ t.oldIdle = s.oldIdle) ∧
      (∀ n, i.net = .ok n → t.oldRx = n.inOctets ∧ t.oldTx = n.outOctets) ∧
      (∀ e, i.net = .error e → t.oldRx = s.oldRx ∧ t.oldTx = s.oldTx) := by
  obtain ⟨fs, mem, net, cpu, load, now⟩ := i
  obtain ⟨t, ht, hseg, hb, hi, hok, herr⟩ :=
    netStep_whole k h1 hk net (memStep mem (diskStep fs { s with segments := [] }))
  have f1 : (memStep mem (diskStep fs { s with segments := [] })).oldRx = s.oldRx := by
    cases mem <;> cases fs <;> rfl
  have f2 : (memStep mem (diskStep fs { s with segments := [] })).oldTx = s.oldTx := by
    cases mem <;> cases fs <;> rfl
  have f3 : (memStep mem (diskStep fs { s with segments := [] })).oldBusy = s.oldBusy := by
    cases mem <;> cases fs <;> rfl
  have f4 : (memStep mem (diskStep fs { s with segments := [] })).oldIdle = s.oldIdle := by
    cases mem <;> cases fs <;> rfl
  rw [f1, f2] at hseg herr
  rw [f3] at hb
  rw [f4] at hi
  rw [memStep_segments, diskStep_segments] at hseg
  refine ⟨clockStep now (loadStep numCPU load (cpuStep cpu t)), ?_, ?_, ?_, ?_, ?_, ?_⟩
  · simp only [cycle, ht]
  · simp only [clockStep, loadStep_segments, cpuStep_segments, hseg, hb, hi]
    simp
  · intro c hc
    simp only at hc
    subst hc
    cases load <;> simp [clockStep, loadStep, cpuStep, hb, hi]
  · intro e hc
    simp only at hc
    subst hc
    cases load <;> simp [clockStep, loadStep, cpuStep, hb, hi]
  · intro n hn
    have := hok n hn
    cases load <;> cases cpu <;> simpa [clockStep, loadStep, cpuStep] using this
  · intro e hn
    have := herr e hn
    cases load <;> cases cpu <;> simpa [clockStep, loadStep, cpuStep] using this

/-- Claim C6. Whatever the outcome of the five reads, a pass returns, and its segment
list is the block of fs, mem, net, cpu and load in this order followed by the clock
segment. A failed read gives one red segment `<label>: <error>` with separator; a
successful read gives a white label without separator and a value with separator, and
the value depends only on that read (and, for net and cpu, on the stored counters). -/
theorem cycle_segments (numCPU : Nat) (i : Inputs) (s : Vars) :
    (∃ t : Vars, cycle second numCPU i s = some t ∧
      t.segments =
        blockOf "fs" (i.fs.map fsValue) ++ blockOf "mem" (i.mem.map memValue) ++
        blockOf "net" (i.net.map (netValue 1 s.oldRx s.oldTx)) ++
        blockOf "cpu" (i.cpu.map (cpuValue s.oldBusy s.oldIdle)) ++
        blockOf "load" (i.load.map (loadValue numCPU)) ++ [⟨i.now, white, false, true⟩]) ∧
    (∀ (label e : String),
      blockOf label (.error e) = [⟨label ++ ": " ++ e, red, false, true⟩]) ∧
    (∀ (label text color : String),
      blockOf label (.ok (text, color))
        = [⟨label, white, false, false⟩, ⟨text, color, false, true⟩]) := by
  refine ⟨?_, fun _ _ => rfl, fun _ _ _ => rfl⟩
  obtain ⟨t, ht, hseg, -⟩ := cycle_whole 1 le_rfl (by norm_num) numCPU i s
  rw [one_mul_second] at ht
  exact ⟨t, ht, hseg⟩

theorem busyTotal_lt (c : CPUStat) : busyTotal c < u64 :=
  Nat.mod_lt _ (by decide)

theorem run_cpu (numCPU : Nat) : ∀ (past : List Inputs) (s : Vars),
    ∃ t : Vars, run second numCPU past s = some t ∧
      (t.oldBusy, t.oldIdle) = (past.reverse.findSome? cpuTotals).getD (s.oldBusy, s.oldIdle)
  | [], s => ⟨s, rfl, rfl⟩
  | i :: rest, s => by
    obtain ⟨s1, h1, -, hok, herr, -⟩ := cycle_whole 1 le_rfl (by norm_num) numCPU i s
    rw [one_mul_second] at h1
    obtain ⟨t, ht, hval⟩ := run_cpu numCPU rest s1
    refine ⟨t, by simp only [run, h1, ht], ?_⟩
    rw [hval, List.reverse_cons, List.findSome?_append]
    cases hr : List.findSome? cpuTotals rest.reverse with
    | some x => simp
    | none =>
      cases hc : i.cpu with
      | ok c =>
        obtain ⟨-, -, -, hb, hi⟩ := hok c hc
        simp [cpuTotals, hc, hb, hi]
      | error e =>
        obtain ⟨hb, hi⟩ := herr e hc
        simp [cpuTotals, hc, hb, hi]

/-- Claim C7. After any sequence of passes from process start the stored CPU totals are
those of the last successful CPU read (zero when there was none). In the next pass a
successful CPU read sets the busy and idle amounts to the current totals minus the stored
ones (`uint64` subtraction, the plain difference when the counter did not go back), the
percentage is computed from these amounts, and the stored totals become the current
ones; a failed CPU read leaves the stored CPU totals unchanged and a failed network read
leaves the stored network counters unchanged. -/
theorem cpu_delta (numCPU : Nat) (past : List Inputs) (i : Inputs) :
    ∃ s t : Vars, run second numCPU past Vars.init = some s ∧
      cycle second numCPU i s = some t ∧
      (s.oldBusy, s.oldIdle) = lastCpu past ∧
      (∀ c, i.cpu = .ok c →
        t.newBusy = sub64 (busyTotal c) (lastCpu past).1 ∧
        t.newIdle = sub64 c.idle (lastCpu past).2 ∧
        ((lastCpu past).1 ≤ busyTotal c → t.newBusy = busyTotal c - (lastCpu past).1) ∧
        ((lastCpu past).2 ≤ c.idle → c.idle < u64 → t.newIdle = c.idle - (lastCpu past).2) ∧
        (c.user + c.nice + c.system + c.ioWait < u64 →
          busyTotal c = c.user + c.nice + c.system + c.ioWait) ∧
        t.cpercent = F64.div (F64.ofNat t.newBusy) (F64.ofNat (add64 t.newBusy t.newIdle)) ∧
        t.oldBusy = busyTotal c ∧ t.oldIdle = c.idle) ∧
      (∀ e, i.cpu = .error e → t.oldBusy = s.oldBusy ∧ t.oldIdle = s.oldIdle) ∧
      (∀ e, i.net = .error e → t.oldRx = s.oldRx ∧ t.oldTx = s.oldTx) := by
  obtain ⟨s, hs, hval⟩ := run_cpu numCPU past Vars.init
  obtain ⟨t, ht, -, hok, herr, -, hnet⟩ := cycle_whole 1 le_rfl (by norm_num) numCPU i s
  rw [one_mul_second] at ht
  have hlast : (s.oldBusy, s.oldIdle) = lastCpu past := hval
  have hb : s.oldBusy = (lastCpu past).1 := congrArg Prod.fst hlast
  have hi : s.oldIdle = (lastCpu past).2 := congrArg Prod.snd hlast
  refine ⟨s, t, hs, ht, hlast, ?_, herr, hnet⟩
  intro c hc
  obtain ⟨a1, a2, a3, a4, a5⟩ := hok c hc
  rw [hb] at a1
  rw [hi] at a2
  refine ⟨a1, a2, ?_, ?_, ?_, a3, a4, a5⟩
  · intro hle
    rw [a1, sub64_of_le _ _ hle (busyTotal_lt c)]
  · intro hle hlt
    rw [a2, sub64_of_le _ _ hle hlt]
  · intro hsum
    simp only [busyTotal, add64, u64] at *
    omega

/-- Witness of `cpu_delta`: a pass with all reads successful, then one in which the
network and CPU reads fail, then again a successful one. -/
theorem cpu_delta_witness :
    ∃ s t : Vars, run second 4 [sampleOk, sampleFail] Vars.init = some s ∧
      cycle second 4 sampleOk s = some t ∧
      (s.oldBusy, s.oldIdle) = lastCpu [sampleOk, sampleFail] ∧
      t.newBusy = sub64 (busyTotal ⟨1, 1, 1, 1, 4⟩) (lastCpu [sampleOk, sampleFail]).1 ∧
      t.oldBusy = busyTotal ⟨1, 1, 1, 1, 4⟩ ∧ t.oldIdle = 4 :=
  match cpu_delta 4 [sampleOk, sampleFail] sampleOk with
  | ⟨s, t, h1, h2, h3, h4, _, _⟩ =>
    ⟨s, t, h1, h2, h3, (h4 ⟨1, 1, 1, 1, 4⟩ rfl).1, (h4 ⟨1, 1, 1, 1, 4⟩ rfl).2.2.2.2.2.2.1,
      (h4 ⟨1, 1, 1, 1, 4⟩ rfl).2.2.2.2.2.2.2⟩

/-- Claim C8. For an interval of `k` whole seconds (`k >= 1`, a valid duration) and
counters that did not go back, a successful network read shows, for each direction on its
own, the rate `(current - stored) / k`, and stores the current counters; a failed read
leaves the stored counters as they were. With stored 1000 and current 2000 the rate is
1000 for one second and 500 for two seconds. -/
theorem net_rate (k : Nat) (n : NetStat) (s : Vars) (h1 : 1 ≤ k)
    (hd : k * second < 2 ^ 63) (hrx : s.oldRx ≤ n.inOctets) (htx : s.oldTx ≤ n.outOctets)
    (h64 : n.inOctets < u64) (h64t : n.outOctets < u64) :
    (∃ t : Vars, netStep (k * second) (.ok n) s = some t ∧
      t.segments = s.segments ++
        [⟨"net", white, false, false⟩,
         ⟨"↓ " ++ (formatData ((n.inOctets - s.oldRx) / k) ++ "/s") ++ " ↑ "
            ++ (formatData ((n.outOctets - s.oldTx) / k) ++ "/s"), white, false, true⟩] ∧
      t.oldRx = n.inOctets ∧ t.oldTx = n.outOctets) ∧
    (∀ e : String, ∃ t : Vars, netStep (k * second) (.error e) s = some t ∧
      t.oldRx = s.oldRx ∧ t.oldTx = s.oldTx) ∧
    perSecond (sub64 2000 1000) (1 * second) = some 1000 ∧
    perSecond (sub64 2000 1000) (2 * second) = some 500 := by
  have hk : k < 2 ^ 53 := by
    simp only [second] at hd
    omega
  refine ⟨?_, fun e => ⟨_, rfl, rfl, rfl⟩, by decide!, by decide!⟩
  obtain ⟨t, ht, hseg, -, -, hok, -⟩ := netStep_whole k h1 hk (.ok n) s
  refine ⟨t, ht, ?_, (hok n rfl).1, (hok n rfl).2⟩
  rw [hseg]
  simp only [Except.map, blockOf, netValue, sub64_of_le _ _ hrx h64, sub64_of_le _ _ htx h64t]

/-- Witness of `net_rate`: stored counters 1000 and 1000, current counters 2000 and
3000, an interval of two seconds. -/
theorem net_rate_witness :
    ∃ t : Vars,
      netStep (2 * second) (.ok ⟨2000, 3000⟩) { Vars.init with oldRx := 1000, oldTx := 1000 }
        = some t ∧
      t.segments = [⟨"net", white, false, false⟩,
         ⟨"↓ " ++ (formatData ((2000 - 1000) / 2) ++ "/s") ++ " ↑ "
            ++ (formatData ((3000 - 1000) / 2) ++ "/s"), white, false, true⟩] ∧
      t.oldRx = 2000 ∧ t.oldTx = 3000 :=
  (net_rate 2 ⟨2000, 3000⟩ { Vars.init with oldRx := 1000, oldTx := 1000 } (by decide)
    (by decide) (by decide) (by decide) (by decide) (by decide)).1

/-- On an error of `json.Marshal` the print section would write two lines, the
one-segment error array and then a bare comma; `marshal` never returns one. -/
theorem printArray_error (e : String) (out : List String) :
    printArray (.error e) out
      = out ++ [",[\x7b\"full_text\":\"error: " ++ e ++ "\"\x7d]" ++ "\n", "," ++ "\n"] ∧
    printArray (.error "x") startup
      = ["\x7b\"version\":1\x7d\n", "[\n", "[]\n", ",[\x7b\"full_text\":\"error: x\"\x7d]\n",
         ",\n"] := by
  constructor
  · simp [printArray, println]
  · decide

/-! ## Colours -/

theorem colors_ne : red ≠ orange ∧ red ≠ green ∧ orange ≠ green := by decide

theorem three_way (P Q : Prop) [Decidable P] [Decidable Q] (hPQ : P → Q) :
    ((if P then red else if Q then orange else green) = red
      ∨ (if P then red else if Q then orange else green) = orange
      ∨ (if P then red else if Q then orange else green) = green) ∧
    ((if P then red else if Q then orange else green) = red ↔ P) ∧
    ((if P then red else if Q then orange else green) = orange ↔ Q ∧ ¬ P) ∧
    ((if P then red else if Q then orange else green) = green ↔ ¬ Q) := by
  obtain ⟨ro, rg, og⟩ := colors_ne
  have orr := Ne.symm ro
  have gr := Ne.symm rg
  have go := Ne.symm og
  by_cases hP : P
  · have hQ := hPQ hP
    simp [hP, hQ, ro, rg]
  · by_cases hQ : Q
    · simp [hP, hQ, orr, og]
    · simp [hP, hQ, gr, go]

theorem c90_eq : c90 = F64.fin (8106479329266893 / 9007199254740992) := by decide!

theorem c75_eq : c75 = F64.fin (3 / 4) := by decide!

theorem tierColor_fin (q : ℚ) :
    tierColor (F64.fin q) =
      if 8106479329266893 / 9007199254740992 < q then red
      else if 3 / 4 < q then orange else green := by
  simp only [tierColor, c90_eq, c75_eq, F64.gt, F64.val, decide_eq_true_eq]

/-- Claim C1. The constants `.9` and `.75` are the `float64` values nearest to 9/10 and
3/4. For every finite percentage `q` the colour is one of red, orange and green (three
different colours): red exactly when `q` is above the constant `.9`, orange exactly when
`q` is above `.75` and at most `.9`, green exactly when `q` is at most `.75`; no `q` up to
9/10 is red. The quotients 9/10 and 3/4 are the two constants and give orange and green.
The disk, memory and CPU sections give their value segment this colour of their
percentage. -/
theorem tierColor_spec :
    (c90 = F64.round (9 / 10) ∧ c90 = F64.fin (8106479329266893 / 9007199254740992) ∧
      c75 = F64.fin (3 / 4)) ∧
    (∀ q : ℚ,
      (tierColor (F64.fin q) = red ∨ tierColor (F64.fin q) = orange
        ∨ tierColor (F64.fin q) = green) ∧
      (tierColor (F64.fin q) = red ↔ F64.gt (F64.fin q) c90 = true) ∧
      (tierColor (F64.fin q) = red ↔ 8106479329266893 / 9007199254740992 < q) ∧
      (tierColor (F64.fin q) = orange ↔
        3 / 4 < q ∧ q ≤ 8106479329266893 / 9007199254740992) ∧
      (tierColor (F64.fin q) = green ↔ q ≤ 3 / 4) ∧
      (q ≤ 9 / 10 → tierColor (F64.fin q) ≠ red)) ∧
    (red ≠ orange ∧ red ≠ green ∧ orange ≠ green) ∧
    (F64.div (F64.ofNat 9) (F64.ofNat 10) = c90 ∧ tierColor c90 = orange) ∧
    (F64.div (F64.ofNat 3) (F64.ofNat 4) = c75 ∧ tierColor c75 = green) ∧
    (∀ (f : Statfs) (s : Vars),
      (diskStep (.ok f) s).segments = s.segments ++
        [⟨"fs", white, false, false⟩,
         ⟨(fsValue f).1, tierColor (diskStep (.ok f) s).dpercent, false, true⟩] ∧
      (diskStep (.ok f) s).dpercent
        = F64.div (F64.ofNat (diskStep (.ok f) s).dused)
            (F64.ofNat (diskStep (.ok f) s).dtotal)) ∧
    (∀ (m : MemInfo) (s : Vars),
      (memStep (.ok m) s).segments = s.segments ++
        [⟨"mem", white, false, false⟩,
         ⟨(memValue m).1, tierColor (memStep (.ok m) s).mpercent, false, true⟩] ∧
      (memStep (.ok m) s).mpercent
        = F64.div (F64.ofNat (memStep (.ok m) s).mused)
            (F64.ofNat (memStep (.ok m) s).mtotal)) ∧
    (∀ (c : CPUStat) (s : Vars),
      (cpuStep (.ok c) s).segments = s.segments ++
        [⟨"cpu", white, false, false⟩,
         ⟨(cpuValue s.oldBusy s.oldIdle c).1, tierColor (cpuStep (.ok c) s).cpercent,
          false, true⟩] ∧
      (cpuStep (.ok c) s).cpercent
        = F64.div (F64.ofNat (cpuStep (.ok c) s).newBusy)
            (F64.ofNat (add64 (cpuStep (.ok c) s).newBusy (cpuStep (.ok c) s).newIdle))) := by
  refine ⟨⟨rfl, c90_eq, c75_eq⟩, ?_, colors_ne, ⟨by decide!, by decide!⟩,
    ⟨by decide!, by decide!⟩, fun _ _ => ⟨rfl, rfl⟩, fun _ _ => ⟨rfl, rfl⟩,
    fun _ _ => ⟨rfl, rfl⟩⟩
  intro q
  have hgt : F64.gt (F64.fin q) c90 = true ↔ 8106479329266893 / 9007199254740992 < q := by
    simp [c90_eq, F64.gt, F64.val]
  rw [hgt, tierColor_fin]
  obtain ⟨h1, h2, h3, h4⟩ := three_way (8106479329266893 / 9007199254740992 < q) (3 / 4 < q)
    (fun h => lt_trans (by norm_num) h)
  refine ⟨h1, h2, h2, ?_, ?_, ?_⟩
  · rw [h3, not_lt]
  · rw [h4, not_lt]
  · intro hle hred
    have := h2.mp hred
    exact absurd (lt_of_lt_of_le this hle) (by norm_num)

theorem F64.half_exact (n : ℕ) (h : n < 2 ^ 53) :
    F64.div (F64.ofNat n) (F64.fin 2) = F64.fin ((n : ℚ) / 2) := by
  rw [F64.ofNat_exact n h]
  rcases Nat.eq_zero_or_pos n with rfl | hpos
  · simp [F64.div, F64.val, F64.zero, F64.isNeg]
  · have hq : (n : ℚ) ≠ 0 := by positivity
    rw [F64.div_fin_fin _ _ hq (by norm_num)]
    have e : (n : ℚ) / 2 = (n : ℚ) * (2 : ℚ) ^ (-1 : ℤ) := by
      rw [zpow_neg_one]
      ring
    rw [e]
    refine F64.round_exact n (-1) hpos h (by norm_num) ?_
    have h1 : (n : ℚ) < 9007199254740992 := by
      have : n < 9007199254740992 := h
      exact_mod_cast this
    have h2 : (0 : ℚ) < (2 : ℚ) ^ (-1 : ℤ) := by positivity
    have h3 : (2 : ℚ) ^ (-1 : ℤ) ≤ 1 := by norm_num
    have h4 : (9007199254740992 : ℚ) < (2 : ℚ) ^ (1024 : ℤ) := by
      have : (9007199254740992 : ℚ) = (2 : ℚ) ^ (53 : ℤ) := by norm_num
      rw [this]
      exact zpow_lt_zpow_right₀ (by norm_num) (by norm_num)
    nlinarith

theorem loadValue_color (n : ℕ) (h : n < 2 ^ 53) (l : LoadAvg) :
    (loadValue n l).2 = loadColor n l.last1Min := by
  simp only [loadValue, loadColor]
  rw [F64.half_exact n h, F64.ofNat_exact n h]

/-- Claim C10. With `n` cores (any count a `float64` holds exactly) the load section
colours its value by the 1-minute load `q` against `n` and `n / 2`: red exactly when
`q > n`, orange exactly when `n / 2 < q <= n`, green exactly when `q <= n / 2`. With four
cores 4.5 is red, 2.5 is orange and 1.0 is green. -/
theorem loadStep_color (n : ℕ) (hn : n < 2 ^ 53) :
    (∀ (l : LoadAvg) (s : Vars),
      (loadStep n (.ok l) s).segments = s.segments ++
        [⟨"load", white, false, false⟩,
         ⟨(loadValue n l).1, loadColor n l.last1Min, false, true⟩]) ∧
    (∀ q : ℚ,
      (loadColor n (F64.fin q) = red ↔ (n : ℚ) < q) ∧
      (loadColor n (F64.fin q) = orange ↔ (n : ℚ) / 2 < q ∧ q ≤ n) ∧
      (loadColor n (F64.fin q) = green ↔ q ≤ (n : ℚ) / 2)) ∧
    ((loadValue 4 ⟨F64.fin (9 / 2), F64.fin 0, F64.fin 0⟩).2 = red ∧
      (loadValue 4 ⟨F64.fin (5 / 2), F64.fin 0, F64.fin 0⟩).2 = orange ∧
      (loadValue 4 ⟨F64.fin 1, F64.fin 0, F64.fin 0⟩).2 = green) := by
  refine ⟨?_, ?_, by decide!, by decide!, by decide!⟩
  · intro l s
    rw [← loadValue_color n hn l]
    rfl
  · intro q
    have hnn : (0 : ℚ) ≤ (n : ℚ) := by positivity
    simp only [loadColor, F64.gt, F64.val, decide_eq_true_eq]
    obtain ⟨-, h2, h3, h4⟩ := three_way ((n : ℚ) < q) ((n : ℚ) / 2 < q)
      (fun h => by linarith)
    refine ⟨h2, ?_, ?_⟩
    · rw [h3, not_lt]
    · rw [h4, not_lt]

/-- Witness of `loadStep_color` with four cores. -/
theorem loadStep_color_witness :
    (loadColor 4 (F64.fin (9 / 2)) = red ↔ ((4 : ℕ) : ℚ) < 9 / 2) ∧
    (loadStep 4 (.ok ⟨F64.fin (9 / 2), F64.fin 0, F64.fin 0⟩) Vars.init).segments
      = Vars.init.segments ++
        [⟨"load", white, false, false⟩,
         ⟨(loadValue 4 ⟨F64.fin (9 / 2), F64.fin 0, F64.fin 0⟩).1,
          loadColor 4 (F64.fin (9 / 2)), false, true⟩] :=
  ⟨((loadStep_color 4 (by decide)).2.1 (9 / 2)).1,
   (loadStep_color 4 (by decide)).1 ⟨F64.fin (9 / 2), F64.fin 0, F64.fin 0⟩ Vars.init⟩


theorem digitChar_spec (d : Nat) (h : d < 10) :
    (Nat.digitChar d).toNat - 48 = d ∧ (Nat.digitChar d).isDigit = true := by
  interval_cases d <;> decide

theorem foldl_digits (l : List Char) (a : Nat) :
    l.foldl (fun a c => 10 * a + (c.toNat - 48)) a = a * 10 ^ l.length + digitsValue l := by
  induction l generalizing a with
  | nil => simp [digitsValue]
  | cons c t ih =>
    simp only [List.foldl_cons, digitsValue, List.length_cons]
    rw [ih, ih (10 * 0 + (c.toNat - 48))]
    ring

theorem digitsValue_cons (c : Char) (t : List Char) :
    digitsValue (c :: t) = (c.toNat - 48) * 10 ^ t.length + digitsValue t := by
  simp only [digitsValue, List.foldl_cons]
  rw [foldl_digits]
  simp [digitsValue]

theorem digitsValue_append (l t : List Char) :
    digitsValue (l ++ t) = digitsValue l * 10 ^ t.length + digitsValue t := by
  simp only [digitsValue, List.foldl_append]
  rw [foldl_digits]
  simp [digitsValue]

theorem toDigitsCore_spec : ∀ (fuel n : Nat) (ds : List Char), n < fuel →
    digitsValue (Nat.toDigitsCore 10 fuel n ds) = n * 10 ^ ds.length + digitsValue ds ∧
    (∀ c ∈ Nat.toDigitsCore 10 fuel n ds, c.isDigit = true ∨ c ∈ ds) ∧
    ∃ c t, Nat.toDigitsCore 10 fuel n ds = c :: t ∧ (c.isDigit = true ∨ False)
  | 0, n, ds, h => by omega
  | fuel + 1, n, ds, h => by
    obtain ⟨d1, d2⟩ := digitChar_spec (n % 10) (Nat.mod_lt _ (by norm_num))
    unfold Nat.toDigitsCore
    simp only
    split_ifs with h0
    · refine ⟨?_, ?_, _, _, rfl, Or.inl d2⟩
      · rw [digitsValue_cons, d1]
        have : n % 10 = n := by omega
        rw [this]
      · intro c hc
        rcases List.mem_cons.mp hc with rfl | hc
        · exact Or.inl d2
        · exact Or.inr hc
    · obtain ⟨i1, i2, c, t, i3, i4⟩ :=
        toDigitsCore_spec fuel (n / 10) (Nat.digitChar (n % 10) :: ds) (by omega)
      refine ⟨?_, ?_, c, t, i3, i4⟩
      · rw [i1, digitsValue_cons, d1, List.length_cons, pow_succ]
        have e : n * 10 ^ ds.length = (10 * (n / 10) + n % 10) * 10 ^ ds.length := by
          rw [Nat.div_add_mod n 10]
        rw [e]
        ring
      · intro c hc
        rcases i2 c hc with h1 | h1
        · exact Or.inl h1
        · rcases List.mem_cons.mp h1 with rfl | h1
          · exact Or.inl d2
          · exact Or.inr h1

theorem repr_spec (n : Nat) :
    digitsValue (Nat.repr n).data = n ∧ (∀ c ∈ (Nat.repr n).data, c.isDigit = true) ∧
    (Nat.repr n).data ≠ [] := by
  obtain ⟨h1, h2, c, t, h3, -⟩ := toDigitsCore_spec (n + 1) n [] (by omega)
  have e : (Nat.repr n).data = Nat.toDigitsCore 10 (n + 1) n [] := rfl
  rw [e]
  refine ⟨by simpa [digitsValue] using h1, ?_, by rw [h3]; simp⟩
  intro c hc
  rcases h2 c hc with h | h
  · exact h
  · simp at h

theorem isDigit_ne_space (c : Char) (h : c.isDigit = true) : (c == ' ') = false := by
  by_contra hc
  simp only [Bool.not_eq_false, beq_iff_eq] at hc
  subst hc
  exact absurd h (by decide)

theorem digitsValue_zeros (m : Nat) (l : List Char) :
    digitsValue (List.replicate m '0' ++ l) = digitsValue l := by
  induction m with
  | zero => simp
  | succ m ih =>
    rw [List.replicate_succ, List.cons_append, digitsValue_cons, ih]
    simp

theorem readDecimal_digits (w : Nat) (ip : String) (h1 : ∀ c ∈ ip.data, c.isDigit = true)
    (h2 : ip.data ≠ []) :
    readDecimal (padLeft w ip) = some ((digitsValue ip.data : ℕ) : ℚ) := by
  obtain ⟨c, t, hct⟩ := List.exists_cons_of_ne_nil h2
  have hc : c.isDigit = true := h1 c (by rw [hct]; simp)
  have hsp : ∀ a ∈ List.replicate (w - ip.length) ' ', (a == ' ') = true := by
    intro a ha
    rw [List.eq_of_mem_replicate ha]
    rfl
  have hdata : (padLeft w ip).data = List.replicate (w - ip.length) ' ' ++ ip.data := by
    simp [padLeft]
  have hdrop : List.dropWhile (fun c => c == ' ') (padLeft w ip).data = ip.data := by
    rw [hdata, List.dropWhile_append_of_pos hsp, hct,
      List.dropWhile_cons_of_neg (by simp [isDigit_ne_space c hc])]
  have htake : List.takeWhile Char.isDigit ip.data = ip.data := by
    have := @List.takeWhile_append_of_pos Char Char.isDigit ip.data [] h1
    simpa using this
  have hdrop2 : List.dropWhile Char.isDigit ip.data = [] := by
    have := @List.dropWhile_append_of_pos Char Char.isDigit ip.data [] h1
    simpa using this
  simp only [readDecimal, hdrop, htake, hdrop2, h2, if_false]

theorem readDecimal_fixed (w : Nat) (ip fr : String)
    (h1 : ∀ c ∈ ip.data, c.isDigit = true) (h2 : ip.data ≠ [])
    (h3 : ∀ c ∈ fr.data, c.isDigit = true) (h4 : fr.data ≠ []) :
    readDecimal (padLeft w (ip ++ "." ++ fr))
      = some ((digitsValue ip.data : ℚ) + (digitsValue fr.data : ℚ) / 10 ^ fr.length) := by
  obtain ⟨c, t, hct⟩ := List.exists_cons_of_ne_nil h2
  have hc : c.isDigit = true := h1 c (by rw [hct]; simp)
  have hsp : ∀ a ∈ List.replicate (w - (ip ++ "." ++ fr).length) ' ', (a == ' ') = true := by
    intro a ha
    rw [List.eq_of_mem_replicate ha]
    rfl
  have hdata : (padLeft w (ip ++ "." ++ fr)).data
      = List.replicate (w - (ip ++ "." ++ fr).length) ' ' ++ (ip.data ++ '.' :: fr.data) := by
    simp [padLeft]
  have hdrop : List.dropWhile (fun c => c == ' ') (padLeft w (ip ++ "." ++ fr)).data
      = ip.data ++ '.' :: fr.data := by
    rw [hdata, List.dropWhile_append_of_pos hsp, hct, List.cons_append,
      List.dropWhile_cons_of_neg (by simp [isDigit_ne_space c hc])]
  have hdot : ¬ Char.isDigit '.' = true := by decide
  have htake : List.takeWhile Char.isDigit (ip.data ++ '.' :: fr.data) = ip.data := by
    rw [List.takeWhile_append_of_pos h1, List.takeWhile_cons_of_neg hdot, List.append_nil]
  have hdrop2 : List.dropWhile Char.isDigit (ip.data ++ '.' :: fr.data) = '.' :: fr.data := by
    rw [List.dropWhile_append_of_pos h1, List.dropWhile_cons_of_neg hdot]
  have hall : fr.data.all Char.isDigit = true := List.all_eq_true.mpr h3
  have hlen : fr.data.length = fr.length := rfl
  simp only [readDecimal, hdrop, htake, hdrop2, hall, hlen]
  rw [if_pos ⟨trivial, h2, h4, trivial⟩]

theorem fracDigits_spec (prec k : Nat) :
    digitsValue (fracDigits prec k).data = k ∧
    (∀ c ∈ (fracDigits prec k).data, c.isDigit = true) ∧ (fracDigits prec k).data ≠ [] := by
  obtain ⟨r1, r2, r3⟩ := repr_spec k
  have hdata : (fracDigits prec k).data
      = List.replicate (prec - (Nat.repr k).length) '0' ++ (Nat.repr k).data := by
    simp [fracDigits]
  rw [hdata]
  refine ⟨by rw [digitsValue_zeros, r1], ?_, by simp [r3]⟩
  intro c hc
  rcases List.mem_append.mp hc with h | h
  · rw [List.eq_of_mem_replicate h]
    decide
  · exact r2 c h

theorem rne_abs_sub_le (x : ℚ) : |(rne x : ℚ) - x| ≤ 1 / 2 := by
  have f1 := Int.floor_le x
  have f2 := Int.lt_floor_add_one x
  unfold rne
  simp only
  rw [abs_le]
  split_ifs with h1 h2 h3
  · constructor <;> linarith
  · push_cast
    constructor <;> linarith
  · constructor <;> linarith
  · push_cast
    constructor <;> linarith

theorem readDecimal_fmtF (w prec : Nat) (q : ℚ) (hp : 0 < prec) (hq : 0 ≤ q) :
    readDecimal (fmtF w prec (F64.fin q))
      = some (((rne (q * 10 ^ prec)).toNat : ℚ) / 10 ^ prec) ∧
    |((rne (q * 10 ^ prec)).toNat : ℚ) / 10 ^ prec - q| ≤ 1 / (2 * 10 ^ prec) := by
  have hneg : ¬ q < 0 := not_lt.mpr hq
  have hP : 0 < 10 ^ prec := by positivity
  have hPq : (0 : ℚ) < 10 ^ prec := by positivity
  have e : fmtF w prec (F64.fin q)
      = padLeft w (Nat.repr ((rne (q * 10 ^ prec)).toNat / 10 ^ prec) ++ "."
          ++ fracDigits prec ((rne (q * 10 ^ prec)).toNat % 10 ^ prec)) := by
    simp [fmtF, fixedMag, hneg, abs_of_nonneg hq, Nat.pos_iff_ne_zero.mp hp]
  obtain ⟨r1, r2, r3⟩ := repr_spec ((rne (q * 10 ^ prec)).toNat / 10 ^ prec)
  obtain ⟨g1, g2, g3⟩ := fracDigits_spec prec ((rne (q * 10 ^ prec)).toNat % 10 ^ prec)
  constructor
  · rw [e, readDecimal_fixed w _ _ r2 r3 g2 g3, r1, g1,
      length_fracDigits _ _ hp (Nat.mod_lt _ hP)]
    congr 1
    have hk := Nat.div_add_mod (rne (q * 10 ^ prec)).toNat (10 ^ prec)
    have hkq : ((rne (q * 10 ^ prec)).toNat : ℚ)
        = (10 ^ prec : ℚ) * (((rne (q * 10 ^ prec)).toNat / 10 ^ prec : ℕ) : ℚ)
          + (((rne (q * 10 ^ prec)).toNat % 10 ^ prec : ℕ) : ℚ) := by
      exact_mod_cast hk.symm
    rw [eq_div_iff hPq.ne', add_mul, div_mul_cancel₀ _ hPq.ne']
    linarith
  · have hnn : 0 ≤ rne (q * 10 ^ prec) := rne_nonneg _ (by positivity)
    have hcast : ((rne (q * 10 ^ prec)).toNat : ℚ) = (rne (q * 10 ^ prec) : ℚ) := by
      have := Int.toNat_of_nonneg hnn
      exact_mod_cast congrArg (fun z : ℤ => (z : ℚ)) this
    have hb := rne_abs_sub_le (q * 10 ^ prec)
    rw [hcast]
    have e2 : (rne (q * 10 ^ prec) : ℚ) / 10 ^ prec - q
        = ((rne (q * 10 ^ prec) : ℚ) - q * 10 ^ prec) / 10 ^ prec := by
      field_simp
      ring
    rw [e2, abs_div, abs_of_pos hPq, div_le_div_iff₀ hPq (by positivity)]
    calc |(rne (q * 10 ^ prec) : ℚ) - q * 10 ^ prec| * (2 * 10 ^ prec)
        ≤ 1 / 2 * (2 * 10 ^ prec) := by gcongr
      _ = 1 * 10 ^ prec := by ring

theorem roundMag_error (a : ℚ) (ha : 0 < a) (he : -1022 ≤ floorLog2 a) :
    |roundMag a - a| ≤ a / 2 ^ 53 := by
  obtain ⟨lo, -⟩ := floorLog2_spec a ha
  unfold roundMag
  simp only [pow2_eq, max_eq_left he]
  generalize floorLog2 a = e at lo
  have hu : (0 : ℚ) < (2 : ℚ) ^ (e - 52) := zpow_pos (by norm_num) _
  have e1 : (2 : ℚ) ^ e = 4503599627370496 * (2 : ℚ) ^ (e - 52) := by
    have h : (2 : ℚ) ^ e = (2 : ℚ) ^ (52 : ℤ) * (2 : ℚ) ^ (e - 52) := by
      rw [← zpow_add₀ (by norm_num)]
      congr 1
      ring
    rw [h]
    norm_num
  have hb := rne_abs_sub_le (a / (2 : ℚ) ^ (e - 52))
  have e2 : (rne (a / (2 : ℚ) ^ (e - 52)) : ℚ) * (2 : ℚ) ^ (e - 52) - a
      = ((rne (a / (2 : ℚ) ^ (e - 52)) : ℚ) - a / (2 : ℚ) ^ (e - 52)) * (2 : ℚ) ^ (e - 52) := by
    field_simp
  rw [e2, abs_mul, abs_of_pos hu]
  have h53 : (2 : ℚ) ^ 53 = 9007199254740992 := by norm_num
  rw [h53, le_div_iff₀ (by norm_num)]
  have hle : 4503599627370496 * (2 : ℚ) ^ (e - 52) ≤ a := by rw [← e1]; exact lo
  calc |(rne (a / (2 : ℚ) ^ (e - 52)) : ℚ) - a / (2 : ℚ) ^ (e - 52)| * (2 : ℚ) ^ (e - 52)
        * 9007199254740992
      ≤ 1 / 2 * (2 : ℚ) ^ (e - 52) * 9007199254740992 := by gcongr
    _ = 4503599627370496 * (2 : ℚ) ^ (e - 52) := by ring
    _ ≤ a := hle

theorem F64.round_near (a : ℚ) (i j : ℤ) (hi : -1022 ≤ i) (hj : j ≤ 1023)
    (h1 : (2 : ℚ) ^ i ≤ a) (h2 : a < (2 : ℚ) ^ j) :
    ∃ r : ℚ, F64.round a = F64.fin r ∧ 0 < r ∧ |r - a| ≤ a / 2 ^ 53 := by
  have ha : 0 < a := lt_of_lt_of_le (zpow_pos (by norm_num) i) h1
  obtain ⟨lo, hi2⟩ := floorLog2_spec a ha
  have two : (1 : ℚ) < 2 := by norm_num
  have ie : i < floorLog2 a + 1 :=
    (zpow_lt_zpow_iff_right₀ two).mp (lt_of_le_of_lt h1 hi2)
  have ej : floorLog2 a < j := (zpow_lt_zpow_iff_right₀ two).mp (lt_of_le_of_lt lo h2)
  obtain ⟨b1, b2⟩ := roundMag_bounds a ha (by omega)
  have c2 : roundMag a ≤ (2 : ℚ) ^ j :=
    le_trans b2 (zpow_le_zpow_right₀ two.le (by omega))
  have c3 : roundMag a < (2 : ℚ) ^ (1024 : ℤ) :=
    lt_of_le_of_lt c2 (zpow_lt_zpow_right₀ two (by omega))
  have c0 : 0 < roundMag a := lt_of_lt_of_le (zpow_pos (by norm_num) _) b1
  refine ⟨roundMag a, ?_, c0, roundMag_error a ha (by omega)⟩
  unfold F64.round
  simp only [pow2_eq, abs_of_pos ha]
  rw [if_neg ha.ne', if_neg (not_le.mpr c3), if_neg (not_lt.mpr ha.le)]

theorem scaled_near (v thr : Nat) (hv : v < u64) (h1 : 1 ≤ v) (ht1 : 1000 ≤ thr)
    (ht2 : thr ≤ 1000000000000) :
    ∃ q : ℚ, 0 < q ∧ F64.div (F64.ofNat v) (F64.fin thr) = F64.fin q ∧
      |q - (v : ℚ) / (thr : ℚ)| ≤ (v : ℚ) / (thr : ℚ) / 2 ^ 51 := by
  have hvq : (v : ℚ) < (2 : ℚ) ^ (64 : ℤ) := by
    have : (v : ℚ) < ((18446744073709551616 : ℕ) : ℚ) := by
      have : v < 18446744073709551616 := hv
      exact_mod_cast this
    norm_num at this ⊢
    exact this
  have hv1 : (2 : ℚ) ^ (0 : ℤ) ≤ (v : ℚ) := by
    simp only [zpow_zero]
    exact_mod_cast h1
  have hv0 : (0 : ℚ) < (v : ℚ) := by
    simp only [zpow_zero] at hv1
    linarith
  obtain ⟨r, hr, rpos, rerr⟩ := F64.round_near (v : ℚ) 0 64 (by norm_num) (by norm_num) hv1 hvq
  obtain ⟨r', hr', r1, r2⟩ := F64.round_between (v : ℚ) 0 64 (by norm_num) (by norm_num) hv1 hvq
  have hrr : r' = r := by
    rw [hr] at hr'
    exact (F64.fin.inj hr').symm
  subst hrr
  have hthr1 : (1000 : ℚ) ≤ (thr : ℚ) := by exact_mod_cast ht1
  have hthr2 : (thr : ℚ) ≤ 1000000000000 := by exact_mod_cast ht2
  have hthr0 : (0 : ℚ) < thr := by linarith
  simp only [zpow_zero] at r1
  have q1 : (2 : ℚ) ^ (-40 : ℤ) ≤ r' / thr := by
    rw [le_div_iff₀ hthr0]
    have : (2 : ℚ) ^ (-40 : ℤ) * thr ≤ 1 := by
      have e : (2 : ℚ) ^ (-40 : ℤ) = 1 / 1099511627776 := by norm_num
      rw [e]
      linarith
    linarith
  have q2 : r' / thr < (2 : ℚ) ^ (64 : ℤ) := by
    rw [div_lt_iff₀ hthr0]
    have : (0 : ℚ) < (2 : ℚ) ^ (64 : ℤ) := by positivity
    nlinarith
  obtain ⟨q, hq, qpos, qerr⟩ :=
    F64.round_near (r' / thr) (-40) 64 (by norm_num) (by norm_num) q1 q2
  refine ⟨q, qpos, ?_, ?_⟩
  · unfold F64.ofNat
    rw [hr]
    simp only [F64.div, F64.val]
    rw [if_neg hthr0.ne', if_neg rpos.ne', hq]
  · have h53 : (2 : ℚ) ^ 53 = 9007199254740992 := by norm_num
    have h51 : (2 : ℚ) ^ 51 = 2251799813685248 := by norm_num
    rw [h53] at rerr qerr
    rw [h51]
    have hV : 0 < (v : ℚ) / thr := div_pos hv0 hthr0
    have hRV : |r' / (thr : ℚ) - (v : ℚ) / thr| ≤ (v : ℚ) / thr / 9007199254740992 := by
      rw [← sub_div, abs_div, abs_of_pos hthr0, div_right_comm]
      exact div_le_div_of_nonneg_right rerr hthr0.le
    have hR : r' / (thr : ℚ) ≤ 2 * ((v : ℚ) / thr) := by
      have := (abs_le.mp hRV).2
      have h3 : (v : ℚ) / thr / 9007199254740992 ≤ (v : ℚ) / thr := by
        rw [div_le_iff₀ (by norm_num)]
        linarith
      linarith
    have hq2 : |q - r' / (thr : ℚ)| ≤ 2 * ((v : ℚ) / thr) / 9007199254740992 :=
      le_trans qerr (div_le_div_of_nonneg_right hR (by norm_num))
    have tri : |q - (v : ℚ) / thr| ≤ |q - r' / (thr : ℚ)| + |r' / (thr : ℚ) - (v : ℚ) / thr| := by
      have := abs_add (q - r' / (thr : ℚ)) (r' / (thr : ℚ) - (v : ℚ) / thr)
      simpa using this
    have fin : 2 * ((v : ℚ) / thr) / 9007199254740992 + (v : ℚ) / thr / 9007199254740992
        ≤ (v : ℚ) / thr / 2251799813685248 := by
      have e : 2 * ((v : ℚ) / thr) / 9007199254740992 + (v : ℚ) / thr / 9007199254740992
          = (v : ℚ) / thr * (3 / 9007199254740992) := by ring
      have e' : (v : ℚ) / thr / 2251799813685248 = (v : ℚ) / thr * (1 / 2251799813685248) := by
        ring
      rw [e, e']
      exact mul_le_mul_of_nonneg_left (by norm_num) hV.le
    linarith

/-! ## The claims on `formatData` -/

/-- Claim C2. For every byte count `v`: when `v` exceeds a threshold of the table, the
selected unit is the one with the largest threshold that `v` strictly exceeds, and the
result is a numeric field, a space and that unit. The field is the rendering of the scaled
value `float64(v) / threshold`, which is within `2 ^ -51` (relative) of the exact quotient
`v / threshold`; read back as a decimal number the field is that scaled value rounded to
the tier's 1, 2 or 3 decimals, so it differs from `v / threshold` by at most half a unit of
the last decimal plus the floating-point error. `v` stays in bytes exactly when
`v <= 1000`, and then the result is `v` itself without decimals, right-aligned in width 5,
followed by two spaces and `B`. `formatData(999)` is `"  999  B"` and `formatData(1000)`
is still in bytes. -/
theorem formatData_unit (v : Nat) :
    (∀ thr u, unitOf v = some (thr, u) →
        thr < v ∧ (∀ t ∈ units, t.1 < v → t.1 ≤ thr) ∧
        formatData v = fmtSize (F64.div (F64.ofNat v) (F64.fin thr)) u ∧
        (∃ field, formatData v = field ++ " " ++ u) ∧
        (v < 2 ^ 53 →
          F64.div (F64.ofNat v) (F64.fin thr) = F64.round ((v : ℚ) / (thr : ℚ))) ∧
        (v < u64 → ∃ (q shown : ℚ) (prec : ℕ) (field : String),
          F64.div (F64.ofNat v) (F64.fin thr) = F64.fin q ∧
          |q - (v : ℚ) / (thr : ℚ)| ≤ (v : ℚ) / (thr : ℚ) / 2 ^ 51 ∧
          prec = (if 100 < q then 1 else if 10 < q then 2 else 3) ∧
          formatData v = field ++ " " ++ u ∧
          readDecimal field = some shown ∧
          shown = ((rne (q * 10 ^ prec)).toNat : ℚ) / 10 ^ prec ∧
          |shown - q| ≤ 1 / (2 * 10 ^ prec) ∧
          |shown - (v : ℚ) / (thr : ℚ)|
            ≤ 1 / (2 * 10 ^ prec) + (v : ℚ) / (thr : ℚ) / 2 ^ 51)) ∧
    (unitOf v = none ↔ v ≤ 1000) ∧
    (v ≤ 1000 → formatData v = padLeft 5 (Nat.repr v) ++ "  B" ∧
      readDecimal (padLeft 5 (Nat.repr v)) = some (v : ℚ)) ∧
    formatData 999 = "  999  B" ∧ formatData 1000 = " 1000  B" ∧
    formatData 2500 = "2.500 kB" ∧ formatData 123456789 = "123.5 MB" ∧
    formatData 45670000000 = "45.67 GB" ∧ formatData 2000000000000 = "2.000 TB" := by
  have key : unitOf v = none ↔ v ≤ 1000 := unitOf_none_iff v
  refine ⟨?_, key, ?_, by decide!, by decide!, by decide!, by decide!, by decide!, by decide!⟩
  · intro thr u h
    have hf : formatData v = fmtSize (F64.div (F64.ofNat v) (F64.fin thr)) u :=
      formatData_of_some v thr u h
    obtain ⟨t1, -, t3, t4⟩ := unitOf_some v thr u h
    refine ⟨t1, ?_, hf, ?_, ?_, ?_⟩
    · intro t ht hlt
      rw [unitOf_eq] at h
      simp [units] at ht
      split_ifs at h <;> simp at h <;> rcases ht with rfl | rfl | rfl | rfl <;>
        simp at hlt ⊢ <;> omega
    · rw [hf, fmtSize_eq]
      exact ⟨_, rfl⟩
    · intro h53
      have hv0 : (v : ℚ) ≠ 0 := by
        have : 0 < v := by omega
        positivity
      have ht0 : (thr : ℚ) ≠ 0 := by
        have : 0 < thr := by omega
        positivity
      rw [F64.ofNat_exact v h53, F64.div_fin_fin _ _ hv0 ht0]
    · intro hv
      obtain ⟨q, qpos, hq, qerr⟩ := scaled_near v thr hv (by omega) t3 t4
      have hp : 0 < (if 100 < q then 1 else if 10 < q then 2 else 3 : ℕ) := by
        split_ifs <;> norm_num
      obtain ⟨rd, rerr⟩ := readDecimal_fmtF 5
        (if 100 < q then 1 else if 10 < q then 2 else 3) q hp qpos.le
      refine ⟨q, _, _, _, hq, qerr, rfl, ?_, rd, rfl, rerr, ?_⟩
      · rw [hf, hq, fmtSize_eq]
        simp only [F64.gt, F64.val, decide_eq_true_eq]
      · have tri := abs_add
          (((rne (q * 10 ^ (if 100 < q then 1 else if 10 < q then 2 else 3))).toNat : ℚ)
            / 10 ^ (if 100 < q then 1 else if 10 < q then 2 else 3) - q)
          (q - (v : ℚ) / (thr : ℚ))
        rw [sub_add_sub_cancel] at tri
        linarith
  · intro h
    obtain ⟨r1, r2, r3⟩ := repr_spec v
    refine ⟨formatData_of_le v h, ?_⟩
    rw [readDecimal_digits 5 _ r2 r3, r1]

/-- Witness of `formatData_unit` at `v = 1500000000` (gigabytes) and `v = 999` (bytes). -/
theorem formatData_unit_witness :
    (1000000000 < 1500000000 ∧
      formatData 1500000000
        = fmtSize (F64.div (F64.ofNat 1500000000) (F64.fin (1000000000 : Nat))) "GB" ∧
      F64.div (F64.ofNat 1500000000) (F64.fin (1000000000 : Nat))
        = F64.round (((1500000000 : Nat) : ℚ) / ((1000000000 : Nat) : ℚ))) ∧
    (∃ (q shown : ℚ) (prec : ℕ) (field : String),
      F64.div (F64.ofNat 1500000000) (F64.fin (1000000000 : Nat)) = F64.fin q ∧
      |q - ((1500000000 : Nat) : ℚ) / ((1000000000 : Nat) : ℚ)|
        ≤ ((1500000000 : Nat) : ℚ) / ((1000000000 : Nat) : ℚ) / 2 ^ 51 ∧
      prec = (if 100 < q then 1 else if 10 < q then 2 else 3) ∧
      formatData 1500000000 = field ++ " " ++ "GB" ∧
      readDecimal field = some shown ∧
      shown = ((rne (q * 10 ^ prec)).toNat : ℚ) / 10 ^ prec ∧
      |shown - q| ≤ 1 / (2 * 10 ^ prec) ∧
      |shown - ((1500000000 : Nat) : ℚ) / ((1000000000 : Nat) : ℚ)|
        ≤ 1 / (2 * 10 ^ prec)
          + ((1500000000 : Nat) : ℚ) / ((1000000000 : Nat) : ℚ) / 2 ^ 51) ∧
    (formatData 999 = padLeft 5 (Nat.repr 999) ++ "  B" ∧
      readDecimal (padLeft 5 (Nat.repr 999)) = some ((999 : Nat) : ℚ)) :=
  ⟨⟨((formatData_unit 1500000000).1 1000000000 "GB" (by decide)).1,
    ((formatData_unit 1500000000).1 1000000000 "GB" (by decide)).2.2.1,
    ((formatData_unit 1500000000).1 1000000000 "GB" (by decide)).2.2.2.2.1 (by decide)⟩,
   ((formatData_unit 1500000000).1 1000000000 "GB" (by decide)).2.2.2.2.2 (by decide),
   (formatData_unit 999).2.2.1 (by decide)⟩

/-- Claim C4, as the code has it: `formatData(1_500_000_000)` is `"1.500 GB"`, with three
decimals and no leading space. -/
theorem formatData_1500000000 : formatData 1500000000 = "1.500 GB" := by decide!

/-- Claim C4 as stated fails: `formatData(1_500_000_000)` is not `"  1.5 GB"`. -/
theorem formatData_1500000000_ne : formatData 1500000000 ≠ "  1.5 GB" := by decide!

/-- Claim C3 as stated fails: `formatData(1_000_000)` is `"1000.0 kB"`, nine characters
with a numeric field of six. -/
theorem formatData_width_counterexample :
    formatData 1000000 = "1000.0 kB" ∧ ¬ (formatData 1000000).length = 8 := by decide!

/-- Claim C5. The scaled value `n` is printed by `%5.1f` when `n > 100`, by `%5.2f` when
`10 < n <= 100` and by `%5.3f` when `n <= 10`; for a non-negative number the verb
`%W.Pf` prints the integer part, a point and exactly `P` digits. `150.0` renders as
`150.0`, `50.0` as `50.00` and `5.0` as `5.000`. -/
theorem fmtSize_precision (n : F64) (u : String) :
    (F64.gt n (F64.fin 100) = true → fmtSize n u = fmtF 5 1 n ++ " " ++ u) ∧
    (F64.gt n (F64.fin 10) = true → F64.le n (F64.fin 100) = true →
      fmtSize n u = fmtF 5 2 n ++ " " ++ u) ∧
    (F64.le n (F64.fin 10) = true → fmtSize n u = fmtF 5 3 n ++ " " ++ u) ∧
    (∀ (w prec : Nat) (q : ℚ), 0 < prec → 0 ≤ q →
      fmtF w prec (F64.fin q)
        = padLeft w (Nat.repr ((rne (q * 10 ^ prec)).toNat / 10 ^ prec) ++ "."
            ++ fracDigits prec ((rne (q * 10 ^ prec)).toNat % 10 ^ prec)) ∧
      (fracDigits prec ((rne (q * 10 ^ prec)).toNat % 10 ^ prec)).length = prec) ∧
    fmtSize (F64.fin 150) u = "150.0" ++ " " ++ u ∧
    fmtSize (F64.fin 50) u = "50.00" ++ " " ++ u ∧
    fmtSize (F64.fin 5) u = "5.000" ++ " " ++ u := by
  refine ⟨?_, ?_, ?_, ?_, ?_, ?_, ?_⟩
  · intro h
    simp [fmtSize, h]
  · intro h1 h2
    simp [fmtSize, h1, F64.gt_eq_false_of_le _ _ h2]
  · intro h
    have h10 : F64.gt n (F64.fin 10) = false := F64.gt_eq_false_of_le _ _ h
    have h100 : F64.gt n (F64.fin 100) = false := by
      cases n <;> simp_all [F64.le, F64.gt, F64.val]
      linarith
    simp [fmtSize, h10, h100]
  · intro w prec q hp hq
    refine ⟨?_, length_fracDigits _ _ hp (Nat.mod_lt _ (by positivity))⟩
    have hneg : ¬ q < 0 := not_lt.mpr hq
    simp [fmtF, fixedMag, hneg, abs_of_nonneg hq, Nat.pos_iff_ne_zero.mp hp]
  · have h : fmtF 5 1 (F64.fin 150) = "150.0" := by decide!
    rw [fmtSize_eq, show F64.gt (F64.fin 150) (F64.fin 100) = true by decide!, if_pos rfl, h]
  · have h : fmtF 5 2 (F64.fin 50) = "50.00" := by decide!
    rw [fmtSize_eq, show F64.gt (F64.fin 50) (F64.fin 100) = false by decide!,
      show F64.gt (F64.fin 50) (F64.fin 10) = true by decide!]
    simp [h]
  · have h : fmtF 5 3 (F64.fin 5) = "5.000" := by decide!
    rw [fmtSize_eq, show F64.gt (F64.fin 5) (F64.fin 100) = false by decide!,
      show F64.gt (F64.fin 5) (F64.fin 10) = false by decide!]
    simp [h]

/-- Witness of `fmtSize_precision`: one scaled value in each tier. -/
theorem fmtSize_precision_witness :
    fmtSize (F64.fin 150) "MB" = fmtF 5 1 (F64.fin 150) ++ " " ++ "MB" ∧
    fmtSize (F64.fin 50) "MB" = fmtF 5 2 (F64.fin 50) ++ " " ++ "MB" ∧
    fmtSize (F64.fin 5) "MB" = fmtF 5 3 (F64.fin 5) ++ " " ++ "MB" ∧
    (fracDigits 3 ((rne ((3 / 2 : ℚ) * 10 ^ 3)).toNat % 10 ^ 3)).length = 3 :=
  ⟨(fmtSize_precision (F64.fin 150) "MB").1 (by decide!),
   (fmtSize_precision (F64.fin 50) "MB").2.1 (by decide!) (by decide!),
   (fmtSize_precision (F64.fin 5) "MB").2.2.1 (by decide!),
   ((fmtSize_precision (F64.fin 5) "MB").2.2.2.1 5 3 (3 / 2) (by decide) (by decide!)).2⟩

/-! ## The output lines -/

end I3fstatus
